import Mathlib

/-!
Verification of the Open Library work-search query-rewriting core
(`openlibrary/plugins/worksearch/schemes/works.py`).

The query AST produced by the external luqum parser is embedded shallowly:
`QueryVal` is the single child of a field-scoped node (a literal, phrase,
range, or parenthesised run of bare words) and `QueryNode` is the general
tree.  Python strings are Lean `String`s; in-place mutation of a node
becomes a function returning the node's new contents.  External utility
modules (ISBN/LCC/DDC normalisation, the luqum parser and its removal
helper, ISO→MARC language codes, query escaping) are not part of the
source under verification; each is modelled from the spec and marked as
such in its doc comment.
-/

namespace Worksearch

/-- The value under a `luqum.tree.SearchField`: a bare `Word`, a quoted
`Phrase` (its string includes the quotes, as in luqum), a `Range`, or a
parenthesised `Group` whose inner expression is a flat run of bare words.

`corruptRange` is not parser-produced: it is the state `ddc_transform`
leaves a `Range` in when a bound fails to normalise.  The source's
`val.low.value = normed_range[0] or val.low` (and likewise for the high
bound) then stores the luqum node object *itself* into the node's
string-valued slot — a self-referential value with no string form.  A
bound recorded as `some s` still holds the string `s`; a bound recorded
as `none` holds the self-reference. -/
inductive QueryVal where
  | word (s : String)
  | phrase (s : String)
  | range (lo hi : String)
  | group (ws : List String)
  | corruptRange (lo hi : Option String)
deriving DecidableEq, Repr

/-- The luqum query tree: leaves, field-scoped nodes, grouping, the two
negation variants, and binary boolean combinations. -/
inductive QueryNode where
  | word (s : String)
  | phrase (s : String)
  | range (lo hi : String)
  | searchField (name : String) (child : QueryVal)
  | group (t : QueryNode)
  | notNode (t : QueryNode)
  | prohibit (t : QueryNode)
  | andOp (l r : QueryNode)
  | orOp (l r : QueryNode)
  | unknownOp (l r : QueryNode)
deriving DecidableEq, Repr

/-- `str()` of a `QueryVal`, following luqum's rendering.  A corrupted
range has no faithful rendering: the source's `str()` recurses into the
self-referential bound and never returns.  The parser never produces that
state and no theorem below relies on this arm. -/
def renderVal : QueryVal → String
  | .word s => s
  | .phrase s => s
  | .range lo hi => "[" ++ lo ++ " TO " ++ hi ++ "]"
  | .group ws => "(" ++ String.intercalate " " ws ++ ")"
  | .corruptRange _ _ => ""

/-- `str()` of a `QueryNode`, following luqum's rendering. -/
def renderNode : QueryNode → String
  | .word s => s
  | .phrase s => s
  | .range lo hi => "[" ++ lo ++ " TO " ++ hi ++ "]"
  | .searchField name v => name ++ ":" ++ renderVal v
  | .group t => "(" ++ renderNode t ++ ")"
  | .notNode t => "NOT " ++ renderNode t
  | .prohibit t => "-" ++ renderNode t
  | .andOp l r => renderNode l ++ " AND " ++ renderNode r
  | .orOp l r => renderNode l ++ " OR " ++ renderNode r
  | .unknownOp l r => renderNode l ++ " " ++ renderNode r

/-- Whether a value is one the external parser can produce (everything
except the corrupted-range state, which only `ddc_transform` creates). -/
def parser_value : QueryVal → Bool
  | .corruptRange _ _ => false
  | _ => true

/-! ## Small string helpers (Python's str operations, at the char-list level) -/

/-- Python `value.startswith('*')`. -/
def headIsStar (s : String) : Bool :=
  match s.data with
  | [] => false
  | c :: _ => c == '*'

/-- Python `value.endswith('*')`. -/
def lastIsStar (s : String) : Bool :=
  match s.data.getLast? with
  | some c => c == '*'
  | none => false

/-- Python `value.strip('"')`: remove all leading and trailing quote chars. -/
def stripQ (l : List Char) : List Char :=
  ((l.dropWhile (fun c => c == '"')).reverse.dropWhile (fun c => c == '"')).reverse

/-- Python `value.strip('"')` on a `String`. -/
def stripQuotes (s : String) : String := ⟨stripQ s.data⟩

/-- Python `value.strip()`: remove leading and trailing whitespace. -/
def pyStrip (s : String) : String :=
  ⟨((s.data.dropWhile Char.isWhitespace).reverse.dropWhile Char.isWhitespace).reverse⟩

/-- Python `s.startswith(pre)`. -/
def pyStartsWith (s pre : String) : Bool :=
  pre.data.isPrefixOf s.data

/-- ASCII lowering of one character (Python `str.lower` on ASCII input). -/
def asciiLower (c : Char) : Char :=
  if 65 ≤ c.toNat ∧ c.toNat ≤ 90 then Char.ofNat (c.toNat + 32) else c

/-- Python `s.lower()`. -/
def pyLower (s : String) : String := ⟨s.data.map asciiLower⟩

/-- Python `s.split(' ')`-style splitting on single spaces, keeping empty
chunks. -/
def splitOnSpace : List Char → List (List Char)
  | [] => [[]]
  | c :: cs =>
      let r := splitOnSpace cs
      if c == ' ' then [] :: r
      else
        match r with
        | w :: ws => (c :: w) :: ws
        | [] => [[c]]

/-! ## Field catalog (source lines 34-166) -/

/-- `WorkSearchScheme.all_fields` (the literal lists `edition_count` twice). -/
def all_fields : List String :=
  ["key", "redirects", "title", "subtitle", "alternative_title",
   "alternative_subtitle", "cover_i", "ebook_access", "edition_count",
   "edition_key", "by_statement", "publish_date", "lccn", "ia", "oclc",
   "isbn", "contributor", "publish_place", "publisher", "first_sentence",
   "author_key", "author_name", "author_alternative_name", "subject",
   "person", "place", "time", "has_fulltext", "title_suggest",
   "edition_count", "publish_year", "language", "number_of_pages_median",
   "ia_count", "publisher_facet", "author_facet", "first_publish_year",
   "subject_key", "person_key", "place_key", "time_key",
   "lcc", "ddc", "lcc_sort", "ddc_sort"]

/-- `WorkSearchScheme.facet_fields`. -/
def facet_fields : List String :=
  ["has_fulltext", "author_facet", "language", "first_publish_year",
   "publisher_facet", "subject_facet", "person_facet", "place_facet",
   "time_facet", "public_scan_b"]

/-- `WorkSearchScheme.field_name_map`. -/
def field_name_map : List (String × String) :=
  [("author", "author_name"),
   ("authors", "author_name"),
   ("by", "author_name"),
   ("number_of_pages", "number_of_pages_median"),
   ("publishers", "publisher"),
   ("subtitle", "alternative_subtitle"),
   ("title", "alternative_title"),
   ("work_subtitle", "subtitle"),
   ("work_title", "title"),
   ("_ia_collection", "ia_collection_s")]

/-- `WorkSearchScheme.is_search_field`.  The `id_` clause is the override in
the source; the base-class test is modelled from the spec: membership in the
catalog's queryable or facet field sets. -/
def is_search_field (field : String) : Bool :=
  all_fields.contains field || facet_fields.contains field
    || pyStartsWith field "id_"

/-- Alias resolution as performed by `transform_user_query` (source line 175):
the lookup is on the lowercased name. -/
def resolve_alias (name : String) : Option String :=
  List.lookup (pyLower name) field_name_map

/-! ## External value-normalisation utilities (modelled from the spec) -/

/-- Modelled from the spec: `openlibrary.utils.isbn.normalize_isbn` strips
punctuation/separators and yields the canonical digit form, or nothing when
what remains is not an ISBN-shaped string (the caller re-checks the length). -/
def normalize_isbn (isbn : String) : Option String :=
  let cleaned := isbn.data.filter (fun c => (c != '-') && (c != ' '))
  if cleaned ≠ [] ∧ cleaned.all (fun c => c.isDigit || c == 'X' || c == 'x') = true
  then some ⟨cleaned⟩ else none

/-- Pad a digit run on the left with `'0'` to width 3 (the DDC sortable
integer-part padding). -/
def digitsPad3 (ds : List Char) : List Char :=
  List.replicate (3 - ds.length) '0' ++ ds

/-- Modelled from the spec: `openlibrary.utils.ddc.normalize_ddc` rewrites a
DDC code into its padded, lexicographically-sortable form (integer part
left-padded to three digits), or nothing when the literal does not start
with a digit. -/
def normalize_ddc (s : String) : Option String :=
  let ds := s.data.takeWhile Char.isDigit
  let rest := s.data.dropWhile Char.isDigit
  if ds = [] then none else some ⟨digitsPad3 ds ++ rest⟩

/-- Modelled from the spec: `openlibrary.utils.ddc.normalize_ddc_prefix`
normalises a human-entered DDC prefix to its padded sortable form, returning
the input unchanged when it cannot. -/
def normalize_ddc_pre (s : String) : String :=
  (normalize_ddc s).getD s

/-- Modelled from the spec: `openlibrary.utils.ddc.normalize_ddc_range`
normalises the two bounds independently; a bound that fails stays
unnormalised. -/
def normalize_ddc_range (lo hi : String) : Option String × Option String :=
  (normalize_ddc lo, normalize_ddc hi)

/-- Pad on the right to width `n`. -/
def padRight (l : List Char) (c : Char) (n : Nat) : List Char :=
  l ++ List.replicate (n - l.length) c

/-- Pad on the left to width `n`. -/
def padLeft (l : List Char) (c : Char) (n : Nat) : List Char :=
  List.replicate (n - l.length) c ++ l

/-- The letter run of a short LCC call number. -/
def lccL (cs : List Char) : List Char := cs.takeWhile Char.isAlpha

/-- What follows the letter run of a short LCC call number. -/
def lccD (cs : List Char) : List Char := cs.dropWhile Char.isAlpha

/-- Recogniser for the short human-entered LCC shape: one to three letters
followed by one to four digits. -/
def isShortLcc (cs : List Char) : Bool :=
  (!(lccL cs).isEmpty) && decide ((lccL cs).length ≤ 3)
    && (!(lccD cs).isEmpty) && decide ((lccD cs).length ≤ 4)
    && (lccD cs).all Char.isDigit

/-- The constant decimal tail of a sortable LCC key. -/
def sortTail : List Char := '.' :: List.replicate 8 '0'

/-- The padded sortable form of a short LCC (e.g. `NC1` ↦
`NC-0001.00000000`, as in the source's own comment). -/
def sortableOfShort (cs : List Char) : List Char :=
  padRight (lccL cs) '-' 3 ++ padLeft (lccD cs) '0' 4 ++ sortTail

/-- Recogniser for the full sortable LCC shape. -/
def isSortableLcc (cs : List Char) : Bool :=
  let a := cs.take 3
  let b := (cs.drop 3).take 4
  let c := (cs.drop 3).drop 4
  decide (a.length = 3) && a.all (fun ch => ch.isAlpha || ch == '-')
    && (match a with | x :: _ => x.isAlpha | [] => false)
    && decide (b.length = 4) && b.all Char.isDigit
    && decide (c = sortTail)

/-- Modelled from the spec: `openlibrary.utils.lcc.short_lcc_to_sortable_lcc`
rewrites a call number into the padded lexicographically-sortable key
(already-sortable keys are kept), or nothing when the shape is not an LCC. -/
def short_lcc_to_sortable_lcc (s : String) : Option String :=
  if isSortableLcc s.data then some s
  else if isShortLcc s.data then some ⟨sortableOfShort s.data⟩
  else none

/-- The sortable-prefix form of a short LCC (e.g. `A720` ↦ `A--0720`, as in
the source's own comment). -/
def sortablePreOfShort (cs : List Char) : List Char :=
  padRight (lccL cs) '-' 3 ++ padLeft (lccD cs) '0' 4

/-- Recogniser for the sortable LCC prefix shape. -/
def isSortablePreLcc (cs : List Char) : Bool :=
  let a := cs.take 3
  let b := cs.drop 3
  decide (a.length = 3) && a.all (fun ch => ch.isAlpha || ch == '-')
    && (match a with | x :: _ => x.isAlpha | [] => false)
    && decide (b.length = 4) && b.all Char.isDigit

/-- Modelled from the spec: `openlibrary.utils.lcc.normalize_lcc_prefix`
normalises a human-entered LCC prefix to its padded sortable-prefix form
(already-normalised prefixes are kept), or nothing when it cannot. -/
def normalize_lcc_pre (s : String) : Option String :=
  if isSortablePreLcc s.data then some s
  else if isShortLcc s.data then some ⟨sortablePreOfShort s.data⟩
  else none

/-- Modelled from the spec: `openlibrary.utils.lcc.normalize_lcc_range`
normalises both bounds to the sortable form, or nothing unless both
normalise. -/
def normalize_lcc_range (lo hi : String) : Option (String × String) :=
  match short_lcc_to_sortable_lcc lo, short_lcc_to_sortable_lcc hi with
  | some l, some h => some (l, h)
  | _, _ => none

/-! ## The four value normalizers (source lines 419-498) -/

/-- `lcc_transform` (source lines 419-455): the contents of the search
field's child after the call.  The `Group`-of-words branch replaces the
child node itself (`sf.expr`), which here is returning a different
`QueryVal` kind. -/
def lcc_transform : QueryVal → QueryVal
  | .range lo hi =>
      match normalize_lcc_range lo hi with
      | some (l, h) => .range l h
      | none => .range lo hi
  | .word s =>
      if '*' ∈ s.data ∧ headIsStar s = false then
        -- `parts = val.value.split('*', 1)`
        let p0 := s.data.takeWhile (fun c => c != '*')
        let p1 := (s.data.dropWhile (fun c => c != '*')).tail
        .word ⟨((normalize_lcc_pre ⟨p0⟩).getD ⟨p0⟩).data ++ '*' :: p1⟩
      else
        match short_lcc_to_sortable_lcc (stripQuotes s) with
        | some n => .word n
        | none => .word s
  | .phrase s =>
      match short_lcc_to_sortable_lcc (stripQuotes s) with
      | some n => .phrase ⟨'"' :: n.data ++ ['"']⟩
      | none => .phrase s
  | .group ws =>
      match short_lcc_to_sortable_lcc ⟨(String.intercalate " " ws).data⟩ with
      | some n =>
          if ' ' ∈ n.data then .phrase ⟨'"' :: n.data ++ ['"']⟩
          else .word ⟨n.data ++ ['*']⟩
      | none => .group ws
  -- Outside the modelled domain: on a corrupted range the source would
  -- hand the node object stored in a bound's value slot to its external
  -- range normaliser, whose behaviour on a non-string is undefined.  A
  -- node is dispatched to at most one classification transform and the
  -- parser produces only string bounds, so this arm is unreachable; no
  -- theorem in this file constrains it.
  | .corruptRange lo hi => .corruptRange lo hi

/-- `ddc_transform` (source lines 458-471): the contents of the search
field's child after the call.  In the `Word`-ending-in-`'*'` branch the
source computes `normalize_ddc_prefix(val.value[:-1]) + '*'` but `return`s
it instead of assigning `val.value`, so the node is left unchanged (the
computed value is captured by `ddc_transform_ret`).  In the `Range` branch
the source assigns `normed_range[0] or val.low` (and likewise for the high
bound): a bound that normalises gets the normalised string, but a bound
that fails gets the luqum node object itself stored into its value slot —
the self-referential, unrenderable state embedded as `corruptRange`. -/
def ddc_transform : QueryVal → QueryVal
  | .range lo hi =>
      let nr := normalize_ddc_range lo hi
      match nr.1, nr.2 with
      | some l, some h => .range l h
      | _, _ => .corruptRange nr.1 nr.2
  | .word s =>
      if lastIsStar s then .word s
      else
        match normalize_ddc (stripQuotes s) with
        | some n => .word n
        | none => .word s
  | .phrase s =>
      match normalize_ddc (stripQuotes s) with
      | some n => .phrase n
      | none => .phrase s
  -- Outside the modelled domain: a corrupted range is still a `Range`
  -- instance in the source, so it would re-enter the branch above and pass
  -- the stored node object to the external range normaliser, whose
  -- behaviour on a non-string is undefined.  Unreachable from
  -- parser-produced trees; no theorem in this file constrains this arm.
  | .corruptRange lo hi => .corruptRange lo hi
  | v => v

/-- The value `ddc_transform` `return`s (source line 465), which every
caller discards: `None` except in the wildcard-`Word` branch. -/
def ddc_transform_ret : QueryVal → Option String
  | .word s =>
      if lastIsStar s then some (normalize_ddc_pre ⟨s.data.dropLast⟩ ++ "*")
      else none
  | _ => none

/-- `isbn_transform` (source lines 474-481). -/
def isbn_transform : QueryVal → QueryVal
  | .word s =>
      if '*' ∈ s.data then .word s
      else
        match normalize_isbn s with
        | some i => .word i
        | none => .word s
  | v => v

/-- `ia_collection_s_transform` (source lines 484-498): a leading or
trailing wildcard is doubled so it also matches across the `;` delimiter. -/
def ia_collection_s_transform : QueryVal → QueryVal
  | .word s =>
      let s1 := if headIsStar s then "*" ++ s else s
      let s2 := if lastIsStar s1 then s1 ++ "*" else s1
      .word s2
  | v => v

/-! ## Query tree rewriter (source lines 168-192) -/

/-- The per-`SearchField` rewriting done inside `transform_user_query`
(source lines 173-184): resolve the alias on the lowercased name, then
dispatch the value normalizers on the (possibly renamed) field name.  The
third dispatch tests the names `dcc` and `dcc_sort`, exactly as the source
does. -/
def transform_search_field (name : String) (v : QueryVal) : String × QueryVal :=
  let name := match resolve_alias name with
              | some n => n
              | none => name
  let v := if name == "isbn" then isbn_transform v else v
  let v := if name == "lcc" || name == "lcc_sort" then lcc_transform v else v
  let v := if name == "dcc" || name == "dcc_sort" then ddc_transform v else v
  let v := if name == "ia_collection_s" then ia_collection_s_transform v else v
  (name, v)

/-- The traversal of `transform_user_query`, applied to every node. -/
def transform_tree : QueryNode → QueryNode
  | .searchField name v =>
      let nv := transform_search_field name v
      .searchField nv.1 nv.2
  | .group t => .group (transform_tree t)
  | .notNode t => .notNode (transform_tree t)
  | .prohibit t => .prohibit (transform_tree t)
  | .andOp l r => .andOp (transform_tree l) (transform_tree r)
  | .orOp l r => .orOp (transform_tree l) (transform_tree r)
  | .unknownOp l r => .unknownOp (transform_tree l) (transform_tree r)
  | t => t

/-- Whether the tree contains any `SearchField` node (the
`has_search_fields` flag of the source's traversal). -/
def has_search_fields : QueryNode → Bool
  | .searchField _ _ => true
  | .group t => has_search_fields t
  | .notNode t => has_search_fields t
  | .prohibit t => has_search_fields t
  | .andOp l r => has_search_fields l || has_search_fields r
  | .orOp l r => has_search_fields l || has_search_fields r
  | .unknownOp l r => has_search_fields l || has_search_fields r
  | _ => false

/-- `WorkSearchScheme.transform_user_query` (source lines 168-192).  The
bare-ISBN fallback's `luqum_parser(f'isbn:({isbn})')` is, per the external
parser's contract, the field-scoped tree `isbn:(<isbn>)`. -/
def transform_user_query (user_query : String) (q_tree : QueryNode) : QueryNode :=
  let t := transform_tree q_tree
  if has_search_fields q_tree then t
  else
    match normalize_isbn user_query with
    | some isbn =>
        if isbn.length = 10 ∨ isbn.length = 13
        then .searchField "isbn" (.group [isbn])
        else t
    | none => t

/-! ## Structured-query builder (source lines 194-230) -/

/-- A request-parameter value: `web.input` delivers either a string or a
list of strings. -/
inductive ParamVal where
  | str (s : String)
  | list (l : List String)
deriving DecidableEq, Repr

/-- The value list for one parameter
(`params[k] if isinstance(params[k], list) else [params[k]]`). -/
def valuesOf : ParamVal → List String
  | .str s => [s]
  | .list l => l

/-- Modelled from the spec:
`openlibrary.solr.query_utils.fully_escape_query` neutralises every
grammar-special token — special characters are backslash-escaped and bare
boolean operator words are lowercased — without altering the literal's
content. -/
def fully_escape_query (s : String) : String :=
  let escaped := String.join (s.data.map (fun c =>
    if ("[]()\x7b\x7d:\"~^\\*?".data.contains c) then ⟨['\\', c]⟩ else ⟨[c]⟩))
  String.intercalate " " ((splitOnSpace escaped.data).map (fun w =>
    if (⟨w⟩ : String) == "AND" || (⟨w⟩ : String) == "OR"
        || (⟨w⟩ : String) == "NOT"
    then pyLower ⟨w⟩ else ⟨w⟩))

/-- One attempt of `re_author_key` (`(OL\d+A)`) at the head of the text. -/
def author_key_at : List Char → Option (List Char)
  | 'O' :: 'L' :: rest =>
      let ds := rest.takeWhile Char.isDigit
      if ds.isEmpty then none
      else
        match rest.drop ds.length with
        | 'A' :: _ => some ('O' :: 'L' :: (ds ++ ['A']))
        | _ => none
  | _ => none

/-- `re_author_key.search`: first (leftmost) match of `(OL\d+A)`. -/
def re_author_key_search : List Char → Option String
  | [] => none
  | c :: cs =>
      match author_key_at (c :: cs) with
      | some k => some ⟨k⟩
      | none => re_author_key_search cs

/-- The fixed pass-through field set of `build_q_from_params` (source lines
205-216), kept in the order of the source literal; Python iterates the set
intersection in an unspecified order. -/
def check_params : List String :=
  ["title", "publisher", "oclc", "lccn", "contributor", "subject", "place",
   "person", "time", "author_key"]

/-- `WorkSearchScheme.build_q_from_params` (source lines 194-230).  A
list-valued `author` or `isbn` is outside the modelled domain (the source
would call string methods on a list). -/
def build_q_from_params (params : List (String × ParamVal)) : String :=
  let author_clauses :=
    match List.lookup "author" params with
    | some (.str a) =>
        let v := pyStrip a
        match re_author_key_search v.data with
        | some key => ["author_key:(" ++ key ++ ")"]
        | none =>
            let v2 := fully_escape_query v
            ["(author_name:(" ++ v2 ++ ") OR author_alternative_name:("
              ++ v2 ++ "))"]
    | _ => []
  let check_clauses := check_params.foldr (fun k acc =>
    match List.lookup k params with
    | some pv =>
        ((valuesOf pv).map (fun val =>
          k ++ ":(" ++ fully_escape_query val ++ ")")) ++ acc
    | none => acc) []
  let isbn_clauses :=
    match List.lookup "isbn" params with
    | some (.str v) =>
        if v == "" then []
        else ["isbn:(" ++ ((normalize_isbn v).getD v) ++ ")"]
    | _ => []
  String.intercalate " AND " (author_clauses ++ check_clauses ++ isbn_clauses)

/-! ## Edition field mapper (source lines 267-338) -/

/-- `WORK_FIELD_TO_ED_FIELD` (source lines 267-294). -/
def WORK_FIELD_TO_ED_FIELD : List (String × String) :=
  [("edition_key", "key"),
   ("text", "text"),
   ("title", "title"),
   ("title_suggest", "title_suggest"),
   ("subtitle", "subtitle"),
   ("alternative_title", "title"),
   ("alternative_subtitle", "subtitle"),
   ("cover_i", "cover_i"),
   ("language", "language"),
   ("publisher", "publisher"),
   ("publisher_facet", "publisher_facet"),
   ("publish_date", "publish_date"),
   ("publish_year", "publish_year"),
   ("isbn", "isbn"),
   ("ebook_access", "ebook_access"),
   ("has_fulltext", "has_fulltext"),
   ("ia", "ia"),
   ("ia_collection", "ia_collection"),
   ("ia_box_id", "ia_box_id"),
   ("public_scan_b", "public_scan_b")]

/-- `convert_work_field_to_edition_field` (source lines 296-310): rename,
keep an `id_` field, drop a work-only or facet field, and raise
`ValueError(f'Unknown field: {field}')` otherwise. -/
def convert_work_field_to_edition_field (field : String) :
    Except String (Option String) :=
  match List.lookup field WORK_FIELD_TO_ED_FIELD with
  | some ed => .ok (some ed)
  | none =>
      if pyStartsWith field "id_" = true then .ok (some field)
      else if field ∈ all_fields ∨ field ∈ facet_fields then .ok none
      else .error ("Unknown field: " ++ field)

/-- The recursive traversal of `convert_work_query_to_edition_query`
(source lines 319-338).  `neg` records whether the node's immediate parent
(the source's `parents[-1]`) is a `Not` or `Prohibit`.  A dropped node is
`none`; dropping cascades upward when it empties the parent, as the
spec-modelled `luqum_remove_child` prescribes, and a binary operation whose
one side is dropped collapses to the other side. -/
def convertTree : Bool → QueryNode → Except String (Option QueryNode)
  | _, .word s => .ok (some (.word s))
  | _, .phrase s => .ok (some (.phrase s))
  | _, .range lo hi => .ok (some (.range lo hi))
  | neg, .searchField name v =>
      if name = "*" then .ok (some (.searchField name v))
      else
        match convert_work_field_to_edition_field name with
        | .error e => .error e
        | .ok (some newName) =>
            -- Prefixing with + makes the field mandatory, unless the
            -- immediate parent is a negation
            .ok (some (.searchField (if neg then newName else "+" ++ newName) v))
        | .ok none => .ok none
  | _, .group t =>
      match convertTree false t with
      | .error e => .error e
      | .ok none => .ok none
      | .ok (some t') => .ok (some (.group t'))
  | _, .notNode t =>
      match convertTree true t with
      | .error e => .error e
      | .ok none => .ok none
      | .ok (some t') => .ok (some (.notNode t'))
  | _, .prohibit t =>
      match convertTree true t with
      | .error e => .error e
      | .ok none => .ok none
      | .ok (some t') => .ok (some (.prohibit t'))
  | _, .andOp l r =>
      match convertTree false l, convertTree false r with
      | .error e, _ => .error e
      | _, .error e => .error e
      | .ok none, .ok none => .ok none
      | .ok (some l'), .ok none => .ok (some l')
      | .ok none, .ok (some r') => .ok (some r')
      | .ok (some l'), .ok (some r') => .ok (some (.andOp l' r'))
  | _, .orOp l r =>
      match convertTree false l, convertTree false r with
      | .error e, _ => .error e
      | _, .error e => .error e
      | .ok none, .ok none => .ok none
      | .ok (some l'), .ok none => .ok (some l')
      | .ok none, .ok (some r') => .ok (some r')
      | .ok (some l'), .ok (some r') => .ok (some (.orOp l' r'))
  | _, .unknownOp l r =>
      match convertTree false l, convertTree false r with
      | .error e, _ => .error e
      | _, .error e => .error e
      | .ok none, .ok none => .ok none
      | .ok (some l'), .ok none => .ok (some l')
      | .ok none, .ok (some r') => .ok (some r')
      | .ok (some l'), .ok (some r') => .ok (some (.unknownOp l' r'))

/-- `convert_work_query_to_edition_query` (source lines 312-338), applied to
the parsed work tree (the source round-trips through `str` and the external
parser).  An emptied tree yields the empty string. -/
def convert_work_query_to_edition_query (t : QueryNode) : Except String String :=
  match convertTree false t with
  | .error e => .error e
  | .ok none => .ok ""
  | .ok (some t') => .ok (renderNode t')

/-! ## Parent-child query composer (source lines 232-416) -/

/-- Modelled from the spec:
`openlibrary.plugins.upstream.utils.convert_iso_to_marc` maps an ISO
language code to the MARC bibliographic code. -/
def convert_iso_to_marc (iso : String) : Option String :=
  List.lookup iso
    [("en", "eng"), ("fr", "fre"), ("de", "ger"), ("es", "spa"),
     ("it", "ita"), ("ja", "jpn"), ("ru", "rus"), ("zh", "chi")]

/-- `convert_iso_to_marc(web.ctx.lang or 'en') or 'eng'` (source line 353),
with the request language supplied as an argument. -/
def marc_lang (user_lang : String) : String :=
  (convert_iso_to_marc (if user_lang = "" then "en" else user_lang)).getD "eng"

/-- The boosted work query (source lines 248-262). -/
def full_work_query : String :=
  "(\x7b!edismax q.op=\"AND\" qf=\"text alternative_title^20 author_name^20\" bf=\"min(100,edition_count)\" v=$workQuery\x7d)"

/-- `ed_q.replace('"', '\\"')` (source line 364). -/
def escQuotes (s : String) : String :=
  ⟨s.data.foldr (fun c acc => (if c == '"' then ['\\', '"'] else [c]) ++ acc) []⟩

/-- The edition boost query `bq` (source lines 366-374). -/
def bq_boost (lang : String) : String :=
  "language:" ++ lang
    ++ "^40 ebook_access:public^10 ebook_access:borrowable^8 ebook_access:printdisabled^2 cover_i:*^2"

/-- The boosted edition subquery (source lines 356-375); an empty mapped
fragment becomes the match-everything `*:*`. -/
def full_ed_query (lang ed_q : String) : String :=
  let v := escQuotes ed_q
  "(\x7b!edismax bq=\"" ++ bq_boost lang ++ "\" v=\""
    ++ (if v = "" then "*:*" else v) ++ "\" qf=\"text title^4\"\x7d)"

/-- The parent-block-join addition to `q` (source lines 384-394), including
the editionless-work allowance. -/
def parent_join_q : String :=
  " +(_query_:\"\x7b!parent which=type:work v=$edQuery filters=$editions.fq\x7d\" OR edition_count:0)"

/-- One step of the `fq`-parameter scan (source lines 343-349). -/
def ed_fq_step (acc : List String) (p : String × String) :
    Except String (List String) :=
  if p.1 != "fq" || pyStartsWith p.2 "type:" then .ok acc
  else
    -- `field_name, field_val = param_value.split(':', 1)`
    let fn : String := ⟨p.2.data.takeWhile (fun c => c != ':')⟩
    let fv : String := ⟨(p.2.data.dropWhile (fun c => c != ':')).tail⟩
    match convert_work_field_to_edition_field fn with
    | .error e => .error e
    | .ok (some ed) => .ok (acc ++ [ed ++ ":" ++ fv])
    | .ok none => .ok acc

/-- The facet-filter scan (source lines 342-349): start from the base
`type:edition` filter and move over every applicable `fq` entry of the
parameter list built so far. -/
def collect_editions_fq (params : List (String × String)) :
    Except String (List String) :=
  params.foldlM ed_fq_step ["type:edition"]

/-- The `editions.fl` projection (source lines 396-400). -/
def edition_fields_of (solr_fields : List String) : List String :=
  let ef := solr_fields.filterMap (fun f =>
    if pyStartsWith f "editions." then
      some (⟨(f.data.dropWhile (fun c => c != '.')).tail⟩ : String)
    else none)
  if ef = [] then solr_fields.filter (fun f => f != "editions:[subquery]") else ef

/-- `WorkSearchScheme.q_to_solr_params` (source lines 232-416).  The query
string has already been parsed by the external `luqum_parser` into
`work_q_tree`; `has_solr_editions_enabled()` and `web.ctx.lang` are the
request context, supplied as arguments.  The parameter list is appended to
in exactly the source's order. -/
def q_to_solr_params (editions_enabled : Bool) (user_lang : String)
    (work_q_tree : QueryNode) (solr_fields : List String) :
    Except String (List (String × String)) :=
  if editions_enabled && solr_fields.contains "editions:[subquery]" then
    match collect_editions_fq [("workQuery", renderNode work_q_tree)] with
    | .error e => .error e
    | .ok editions_fq =>
        match convert_work_query_to_edition_query work_q_tree with
        | .error e => .error e
        | .ok ed_q =>
            .ok
              (if ed_q ≠ "" ∨ editions_fq.length > 1 then
                [("workQuery", renderNode work_q_tree)]
                  ++ editions_fq.map (fun fq => ("editions.fq", fq))
                  ++ [("edQuery",
                        if ed_q ≠ "" then full_ed_query (marc_lang user_lang) ed_q
                        else "*:*"),
                      ("q", "+" ++ full_work_query ++ parent_join_q),
                      ("editions.q",
                        "(\x7b!terms f=_root_ v=$row.key\x7d) AND "
                          ++ full_ed_query (marc_lang user_lang) ed_q),
                      ("editions.rows", "1"),
                      ("editions.fl",
                        String.intercalate "," (edition_fields_of solr_fields))]
              else
                [("workQuery", renderNode work_q_tree)]
                  ++ editions_fq.map (fun fq => ("editions.fq", fq))
                  ++ [("q", full_work_query)])
  else
    .ok [("workQuery", renderNode work_q_tree), ("q", full_work_query)]

/-- Whether the tree contains a `SearchField` node with the given name. -/
def tree_has_field (name : String) : QueryNode → Bool
  | .searchField n _ => n == name
  | .group t => tree_has_field name t
  | .notNode t => tree_has_field name t
  | .prohibit t => tree_has_field name t
  | .andOp l r => tree_has_field name l || tree_has_field name r
  | .orOp l r => tree_has_field name l || tree_has_field name r
  | .unknownOp l r => tree_has_field name l || tree_has_field name r
  | _ => false

/-! ## Generic list and character lemmas -/

theorem head_of_dropWhile_false {α : Type} {p : α → Bool} :
    ∀ {l : List α} {c : α} {t : List α}, l.dropWhile p = c :: t → p c = false := by
  intro l
  induction l with
  | nil => intro c t h; simp [List.dropWhile] at h
  | cons a as ih =>
      intro c t h
      rw [List.dropWhile_cons] at h
      by_cases ha : p a = true
      · rw [if_pos ha] at h; exact ih h
      · rw [if_neg ha] at h
        obtain ⟨rfl, -⟩ := List.cons.inj h
        exact Bool.eq_false_iff.mpr ha

theorem takeWhile_dropWhile_self {α : Type} (p : α → Bool) (l : List α) :
    (l.dropWhile p).takeWhile p = [] := by
  cases hd : l.dropWhile p with
  | nil => simp
  | cons c t => rw [List.takeWhile_cons, head_of_dropWhile_false hd]; simp

theorem dropWhile_dropWhile_self {α : Type} (p : α → Bool) (l : List α) :
    (l.dropWhile p).dropWhile p = l.dropWhile p := by
  cases hd : l.dropWhile p with
  | nil => simp
  | cons c t => rw [List.dropWhile_cons, head_of_dropWhile_false hd]; simp

theorem takeWhile_append_all {α : Type} {p : α → Bool} {a : List α}
    (b : List α) (h : ∀ c ∈ a, p c = true) :
    (a ++ b).takeWhile p = a ++ b.takeWhile p := by
  induction a with
  | nil => simp
  | cons x xs ih =>
      have hx := h x (List.mem_cons_self x xs)
      simp only [List.cons_append, List.takeWhile_cons, hx, if_pos]
      rw [ih (fun c hc => h c (List.mem_cons_of_mem x hc))]

theorem dropWhile_append_all {α : Type} {p : α → Bool} {a : List α}
    (b : List α) (h : ∀ c ∈ a, p c = true) :
    (a ++ b).dropWhile p = b.dropWhile p := by
  induction a with
  | nil => simp
  | cons x xs ih =>
      have hx := h x (List.mem_cons_self x xs)
      simp only [List.cons_append, List.dropWhile_cons, hx, if_pos]
      exact ih (fun c hc => h c (List.mem_cons_of_mem x hc))

theorem getLast?_of_getLast?_ne_nil {α : Type} {l : List α} (h : l ≠ []) :
    ∃ x, l.getLast? = some x := by
  cases hl : l.getLast? with
  | some x => exact ⟨x, rfl⟩
  | none => exact absurd (List.getLast?_eq_none_iff.mp hl) h

theorem getLast?_append_of_ne_nil {α : Type} {a b : List α} (h : b ≠ []) :
    (a ++ b).getLast? = b.getLast? := by
  obtain ⟨x, hx⟩ := getLast?_of_getLast?_ne_nil h
  rw [List.getLast?_append, hx]
  rfl

theorem mem_of_getLast?_eq {α : Type} :
    ∀ {l : List α} {x : α}, l.getLast? = some x → x ∈ l := by
  intro l
  induction l with
  | nil => intro x h; exact absurd h (by simp)
  | cons a t ih =>
      intro x h
      cases t with
      | nil =>
          obtain rfl : a = x := Option.some.inj h
          exact List.mem_cons_self a []
      | cons b t' =>
          have h2 : (b :: t').getLast? = some x := h
          exact List.mem_cons_of_mem a (ih h2)

theorem getLast?_dropWhile {α : Type} {p : α → Bool} {l : List α} {x : α}
    (h : (l.dropWhile p).getLast? = some x) : l.getLast? = some x := by
  obtain ⟨pre, hpre⟩ := @List.dropWhile_suffix _ l p
  have hne : l.dropWhile p ≠ [] := by
    intro hnil
    rw [hnil] at h
    exact absurd h (by simp)
  rw [← hpre, getLast?_append_of_ne_nil hne]
  exact h

theorem mem_dropWhile_of_not_sat {α : Type} {p : α → Bool} {l : List α} {c : α}
    (hm : c ∈ l) (hc : p c = false) : c ∈ l.dropWhile p := by
  have hsplit := List.takeWhile_append_dropWhile p l
  rw [← hsplit] at hm
  rcases List.mem_append.mp hm with h | h
  · exact absurd (List.mem_takeWhile_imp h) (by simp [hc])
  · exact h

theorem bne_of_pred {α : Type} [BEq α] [LawfulBEq α] {p : α → Bool} {c d : α}
    (h : p c = true) (hd : p d = false) : (c == d) = false := by
  cases hb : c == d
  · rfl
  · have hcd : c = d := eq_of_beq hb
    subst hcd
    rw [h] at hd
    exact absurd hd (by simp)

/-! ## String-level helper lemmas -/

theorem string_eta (s : String) : (⟨s.data⟩ : String) = s := rfl

theorem headIsStar_mk {c : Char} {t : List Char} :
    headIsStar ⟨c :: t⟩ = (c == '*') := rfl

theorem lastIsStar_mk (l : List Char) :
    lastIsStar ⟨l⟩ = (match l.getLast? with | some c => c == '*' | none => false) := rfl

theorem stripQ_getLast?_ne_quote {l : List Char} {x : Char}
    (h : (stripQ l).getLast? = some x) : (x == '"') = false := by
  unfold stripQ at h
  rw [List.getLast?_reverse] at h
  cases hd : (l.dropWhile (fun c => c == '"')).reverse.dropWhile (fun c => c == '"') with
  | nil => rw [hd] at h; exact absurd h (by simp)
  | cons c t =>
      rw [hd] at h
      have hcx : x = c := (Option.some.inj h).symm
      subst hcx
      exact @head_of_dropWhile_false Char (fun ch => ch == '"') _ _ _ hd

theorem stripQ_eq_self {l : List Char}
    (h1 : ∀ c t, l = c :: t → (c == '"') = false)
    (h2 : ∀ x, l.getLast? = some x → (x == '"') = false) :
    stripQ l = l := by
  unfold stripQ
  have hfront : l.dropWhile (fun c => c == '"') = l := by
    cases l with
    | nil => simp
    | cons c t => rw [List.dropWhile_cons, h1 c t rfl]; simp
  rw [hfront]
  have hback : l.reverse.dropWhile (fun c => c == '"') = l.reverse := by
    cases hr : l.reverse with
    | nil => simp
    | cons x r =>
        have hx : l.getLast? = some x := by
          rw [← List.head?_reverse, hr]; rfl
        rw [List.dropWhile_cons, h2 x hx]; simp
  rw [hback, List.reverse_reverse]

/-! ## ISBN normaliser: fixed-point lemmas -/

theorem normalize_isbn_some {s i : String} (h : normalize_isbn s = some i) :
    i.data = s.data.filter (fun c => (c != '-') && (c != ' '))
    ∧ i.data ≠ []
    ∧ i.data.all (fun c => c.isDigit || c == 'X' || c == 'x') = true := by
  simp only [normalize_isbn] at h
  split at h
  · rename_i hc
    obtain ⟨h1, h2⟩ := hc
    obtain rfl := Option.some.inj h
    exact ⟨rfl, h1, h2⟩
  · exact absurd h (by simp)

theorem normalize_isbn_fp {s i : String} (h : normalize_isbn s = some i) :
    normalize_isbn i = some i ∧ '*' ∉ i.data := by
  obtain ⟨hd, hne, hall⟩ := normalize_isbn_some h
  have hsat : ∀ c ∈ i.data, (c.isDigit || c == 'X' || c == 'x') = true :=
    List.all_eq_true.mp hall
  constructor
  · have hfilter : i.data.filter (fun c => (c != '-') && (c != ' ')) = i.data := by
      rw [List.filter_eq_self]
      intro c hc
      have hp := hsat c hc
      have h1 : (c == '-') = false :=
        @bne_of_pred Char _ _ (fun ch => ch.isDigit || ch == 'X' || ch == 'x')
          c '-' hp (by decide)
      have h2 : (c == ' ') = false :=
        @bne_of_pred Char _ _ (fun ch => ch.isDigit || ch == 'X' || ch == 'x')
          c ' ' hp (by decide)
      simp [bne, h1, h2]
    simp only [normalize_isbn]
    rw [hfilter, if_pos ⟨hne, hall⟩]
  · intro hmem
    exact absurd (hsat '*' hmem) (by decide)

/-- C5 building block: the ISBN normalizer is idempotent. -/
theorem isbn_transform_idem (v : QueryVal) :
    isbn_transform (isbn_transform v) = isbn_transform v := by
  cases v with
  | word s =>
      by_cases hstar : '*' ∈ s.data
      · simp [isbn_transform, hstar]
      · cases hn : normalize_isbn s with
        | none => simp [isbn_transform, hstar, hn]
        | some i =>
            obtain ⟨hfp, hstar2⟩ := normalize_isbn_fp hn
            simp [isbn_transform, hstar, hn, hstar2, hfp]
  | phrase s => rfl
  | range lo hi => rfl
  | group ws => rfl
  | corruptRange lo hi => rfl

/-! ## DDC normaliser: fixed-point lemmas -/

theorem normalize_ddc_some {s n : String} (h : normalize_ddc s = some n) :
    n.data = digitsPad3 (s.data.takeWhile Char.isDigit)
      ++ s.data.dropWhile Char.isDigit
    ∧ s.data.takeWhile Char.isDigit ≠ [] := by
  simp only [normalize_ddc] at h
  split at h
  · exact absurd h (by simp)
  · rename_i hne
    obtain rfl := Option.some.inj h
    exact ⟨rfl, hne⟩

theorem digitsPad3_all_digit {l : List Char} (h : ∀ c ∈ l, c.isDigit = true) :
    ∀ c ∈ digitsPad3 l, c.isDigit = true := by
  intro c hc
  rcases List.mem_append.mp hc with hrep | hl
  · rw [List.eq_of_mem_replicate hrep]; decide
  · exact h c hl

theorem digitsPad3_ne_nil {l : List Char} (h : l ≠ []) : digitsPad3 l ≠ [] := by
  unfold digitsPad3
  simp [h]

theorem digitsPad3_len (l : List Char) : 3 ≤ (digitsPad3 l).length ∨ l = [] := by
  cases l with
  | nil => exact Or.inr rfl
  | cons c t =>
      left
      unfold digitsPad3
      rw [List.length_append, List.length_replicate]
      simp only [List.length_cons]
      omega

theorem digitsPad3_idem {l : List Char} (h : 3 ≤ l.length) : digitsPad3 l = l := by
  unfold digitsPad3
  rw [Nat.sub_eq_zero_of_le h]
  rfl

theorem normalize_ddc_fp {s n : String} (h : normalize_ddc s = some n) :
    normalize_ddc n = some n := by
  obtain ⟨hd, hne⟩ := normalize_ddc_some h
  have hds : ∀ c ∈ s.data.takeWhile Char.isDigit, c.isDigit = true :=
    fun c hc => List.mem_takeWhile_imp hc
  have hpad : ∀ c ∈ digitsPad3 (s.data.takeWhile Char.isDigit), c.isDigit = true :=
    digitsPad3_all_digit hds
  have htake : n.data.takeWhile Char.isDigit
      = digitsPad3 (s.data.takeWhile Char.isDigit) := by
    rw [hd, takeWhile_append_all _ hpad, takeWhile_dropWhile_self,
      List.append_nil]
  have hdrop : n.data.dropWhile Char.isDigit = s.data.dropWhile Char.isDigit := by
    rw [hd, dropWhile_append_all _ hpad, dropWhile_dropWhile_self]
  have hpadne : digitsPad3 (s.data.takeWhile Char.isDigit) ≠ [] :=
    digitsPad3_ne_nil hne
  have hpadlen : 3 ≤ (digitsPad3 (s.data.takeWhile Char.isDigit)).length :=
    (digitsPad3_len (s.data.takeWhile Char.isDigit)).resolve_right hne
  simp only [normalize_ddc]
  rw [htake, hdrop, if_neg hpadne, digitsPad3_idem hpadlen, ← hd, string_eta]

theorem normalize_ddc_head {s n : String} (h : normalize_ddc s = some n) :
    ∃ c t, n.data = c :: t ∧ c.isDigit = true := by
  obtain ⟨hd, hne⟩ := normalize_ddc_some h
  have hds : ∀ c ∈ s.data.takeWhile Char.isDigit, c.isDigit = true :=
    fun c hc => List.mem_takeWhile_imp hc
  cases hpad : digitsPad3 (s.data.takeWhile Char.isDigit) with
  | nil => exact absurd hpad (digitsPad3_ne_nil hne)
  | cons c t =>
      refine ⟨c, t ++ s.data.dropWhile Char.isDigit, ?_, ?_⟩
      · rw [hd, hpad]; rfl
      · have : c ∈ digitsPad3 (s.data.takeWhile Char.isDigit) := by
          rw [hpad]; exact List.mem_cons_self c t
        exact digitsPad3_all_digit hds c this

theorem normalize_ddc_last {s n : String} (h : normalize_ddc s = some n) :
    ∀ x, n.data.getLast? = some x →
      x.isDigit = true
      ∨ (s.data.dropWhile Char.isDigit).getLast? = some x := by
  obtain ⟨hd, hne⟩ := normalize_ddc_some h
  intro x hx
  cases hrest : s.data.dropWhile Char.isDigit with
  | nil =>
      left
      rw [hd, hrest, List.append_nil] at hx
      have hmem : x ∈ digitsPad3 (s.data.takeWhile Char.isDigit) :=
        mem_of_getLast?_eq hx
      exact digitsPad3_all_digit
        (fun c hc => List.mem_takeWhile_imp hc) x hmem
  | cons r rs =>
      right
      rw [hd, hrest] at hx
      rw [getLast?_append_of_ne_nil (by simp)] at hx
      exact hx

/-- The composite fixed-point fact the DDC word/phrase branches need:
normalising a stripped value yields a string that strips to itself and
re-normalises to itself. -/
theorem ddc_norm_strip_fp {s n : String}
    (h : normalize_ddc (stripQuotes s) = some n) :
    stripQuotes n = n ∧ normalize_ddc n = some n := by
  refine ⟨?_, normalize_ddc_fp h⟩
  obtain ⟨c, t, hct, hcd⟩ := normalize_ddc_head h
  have hstrip : stripQ n.data = n.data := by
    apply stripQ_eq_self
    · intro c' t' hl
      rw [hct] at hl
      obtain ⟨rfl, -⟩ := List.cons.inj hl
      exact bne_of_pred hcd (by decide)
    · intro x hx
      rcases normalize_ddc_last h x hx with hdig | hlastrest
      · exact bne_of_pred hdig (by decide)
      · exact stripQ_getLast?_ne_quote (getLast?_dropWhile hlastrest)
  unfold stripQuotes
  rw [hstrip]

/-- C5 building block: the DDC normalizer is idempotent on `Word` values
(the wildcard branch leaves the node unchanged, so it is trivially
idempotent there). -/
theorem ddc_transform_word_idem (s : String) :
    ddc_transform (ddc_transform (.word s)) = ddc_transform (.word s) := by
  cases hstar : lastIsStar s with
  | true => simp [ddc_transform, hstar]
  | false =>
      cases hn : normalize_ddc (stripQuotes s) with
      | none => simp [ddc_transform, hstar, hn]
      | some n =>
          obtain ⟨hsn, hfp⟩ := ddc_norm_strip_fp hn
          cases hstar2 : lastIsStar n with
          | true => simp [ddc_transform, hstar, hn, hstar2]
          | false => simp [ddc_transform, hstar, hn, hstar2, hsn, hfp]

/-- C5 building block: the DDC normalizer is idempotent on `Phrase`
values. -/
theorem ddc_transform_phrase_idem (s : String) :
    ddc_transform (ddc_transform (.phrase s)) = ddc_transform (.phrase s) := by
  cases hn : normalize_ddc (stripQuotes s) with
  | none => simp [ddc_transform, hn]
  | some n =>
      obtain ⟨hsn, hfp⟩ := ddc_norm_strip_fp hn
      simp [ddc_transform, hn, hsn, hfp]

/-- C5 building block: a DDC `Range` whose two bounds both normalise is
rewritten to the normalised bounds, and a second application is a no-op. -/
theorem ddc_transform_range_ok {lo hi l h : String}
    (hl : normalize_ddc lo = some l) (hh : normalize_ddc hi = some h) :
    ddc_transform (.range lo hi) = .range l h
    ∧ ddc_transform (ddc_transform (.range lo hi))
        = ddc_transform (.range lo hi) := by
  have h1 : ddc_transform (.range lo hi) = .range l h := by
    simp [ddc_transform, normalize_ddc_range, hl, hh]
  have h2 : ddc_transform (.range l h) = .range l h := by
    simp [ddc_transform, normalize_ddc_range,
      normalize_ddc_fp hl, normalize_ddc_fp hh]
  refine ⟨h1, ?_⟩
  rw [h1, h2]

/-- C5 building block: a DDC `Range` with a bound that fails to normalise
is corrupted by the first application — the source stores the node object
itself into the failing bound's value slot, so the node does not reach a
normalised fixed point. -/
theorem ddc_transform_range_corrupt {lo hi : String}
    (h : normalize_ddc lo = none ∨ normalize_ddc hi = none) :
    ddc_transform (.range lo hi)
      = .corruptRange (normalize_ddc lo) (normalize_ddc hi) := by
  rcases h with h | h
  · cases hh : normalize_ddc hi <;>
      simp [ddc_transform, normalize_ddc_range, h, hh]
  · cases hl : normalize_ddc lo <;>
      simp [ddc_transform, normalize_ddc_range, h, hl]

/-! ## LCC normaliser: shape and fixed-point lemmas -/

theorem isShortLcc_parts {cs : List Char} (h : isShortLcc cs = true) :
    lccL cs ≠ [] ∧ (lccL cs).length ≤ 3 ∧ lccD cs ≠ [] ∧ (lccD cs).length ≤ 4
    ∧ ∀ c ∈ lccD cs, c.isDigit = true := by
  unfold isShortLcc at h
  repeat rw [Bool.and_eq_true] at h
  obtain ⟨⟨⟨⟨h1, h2⟩, h3⟩, h4⟩, h5⟩ := h
  refine ⟨?_, of_decide_eq_true h2, ?_, of_decide_eq_true h4,
    List.all_eq_true.mp h5⟩
  · intro hnil; rw [hnil] at h1; simp at h1
  · intro hnil; rw [hnil] at h3; simp at h3

theorem padRight_length {l : List Char} {c : Char} {n : Nat}
    (h : l.length ≤ n) : (padRight l c n).length = n := by
  unfold padRight
  rw [List.length_append, List.length_replicate]
  omega

theorem padLeft_length {l : List Char} {c : Char} {n : Nat}
    (h : l.length ≤ n) : (padLeft l c n).length = n := by
  unfold padLeft
  rw [List.length_append, List.length_replicate]
  omega

theorem mem_padRight {l : List Char} {c : Char} {n : Nat} {ch : Char}
    (h : ch ∈ padRight l c n) : ch ∈ l ∨ ch = c := by
  unfold padRight at h
  rcases List.mem_append.mp h with h | h
  · exact Or.inl h
  · exact Or.inr (List.eq_of_mem_replicate h)

theorem mem_padLeft {l : List Char} {c : Char} {n : Nat} {ch : Char}
    (h : ch ∈ padLeft l c n) : ch ∈ l ∨ ch = c := by
  unfold padLeft at h
  rcases List.mem_append.mp h with h | h
  · exact Or.inr (List.eq_of_mem_replicate h)
  · exact Or.inl h

theorem isSortableLcc_build {a b : List Char}
    (ha3 : a.length = 3) (haall : ∀ c ∈ a, (c.isAlpha || c == '-') = true)
    (hhead : ∃ x t, a = x :: t ∧ x.isAlpha = true)
    (hb4 : b.length = 4) (hball : ∀ c ∈ b, c.isDigit = true) :
    isSortableLcc (a ++ b ++ sortTail) = true := by
  have htake : (a ++ b ++ sortTail).take 3 = a := by
    rw [List.append_assoc, ← ha3, List.take_left]
  have hdrop : (a ++ b ++ sortTail).drop 3 = b ++ sortTail := by
    rw [List.append_assoc, ← ha3, List.drop_left]
  have htake2 : (b ++ sortTail).take 4 = b := by rw [← hb4, List.take_left]
  have hdrop2 : (b ++ sortTail).drop 4 = sortTail := by rw [← hb4, List.drop_left]
  obtain ⟨x, t, rfl, hx⟩ := hhead
  have e1 : decide ((x :: t).length = 3) = true := decide_eq_true ha3
  have e2 : ((x :: t).all fun ch => ch.isAlpha || ch == '-') = true :=
    List.all_eq_true.mpr haall
  have e4 : decide (b.length = 4) = true := decide_eq_true hb4
  have e5 : b.all Char.isDigit = true := List.all_eq_true.mpr hball
  have ht : t.length = 2 := by simpa using ha3
  simp only [isSortableLcc, htake, hdrop, htake2, hdrop2]
  simp [e1, e2, hx, e4, e5, ht]

theorem isSortablePreLcc_build {a b : List Char}
    (ha3 : a.length = 3) (haall : ∀ c ∈ a, (c.isAlpha || c == '-') = true)
    (hhead : ∃ x t, a = x :: t ∧ x.isAlpha = true)
    (hb4 : b.length = 4) (hball : ∀ c ∈ b, c.isDigit = true) :
    isSortablePreLcc (a ++ b) = true := by
  have htake : (a ++ b).take 3 = a := by rw [← ha3, List.take_left]
  have hdrop : (a ++ b).drop 3 = b := by rw [← ha3, List.drop_left]
  obtain ⟨x, t, rfl, hx⟩ := hhead
  have e1 : decide ((x :: t).length = 3) = true := decide_eq_true ha3
  have e2 : ((x :: t).all fun ch => ch.isAlpha || ch == '-') = true :=
    List.all_eq_true.mpr haall
  have e4 : decide (b.length = 4) = true := decide_eq_true hb4
  have e5 : b.all Char.isDigit = true := List.all_eq_true.mpr hball
  have ht : t.length = 2 := by simpa using ha3
  simp only [isSortablePreLcc, htake, hdrop]
  simp [e1, e2, hx, e4, e5, ht]

theorem isSortableLcc_decomp {cs : List Char} (h : isSortableLcc cs = true) :
    ∃ a b, cs = a ++ b ++ sortTail ∧ a.length = 3
      ∧ (∀ c ∈ a, (c.isAlpha || c == '-') = true)
      ∧ (∃ x t, a = x :: t ∧ x.isAlpha = true)
      ∧ b.length = 4 ∧ (∀ c ∈ b, c.isDigit = true) := by
  unfold isSortableLcc at h
  repeat rw [Bool.and_eq_true] at h
  obtain ⟨⟨⟨⟨⟨h1, h2⟩, h3⟩, h4⟩, h5⟩, h6⟩ := h
  refine ⟨cs.take 3, (cs.drop 3).take 4, ?_, of_decide_eq_true h1,
    List.all_eq_true.mp h2, ?_, of_decide_eq_true h4, List.all_eq_true.mp h5⟩
  · have hc := of_decide_eq_true h6
    calc cs = cs.take 3 ++ cs.drop 3 := (List.take_append_drop 3 cs).symm
      _ = cs.take 3 ++ ((cs.drop 3).take 4 ++ (cs.drop 3).drop 4) := by
            exact congrArg (fun z => cs.take 3 ++ z)
              (List.take_append_drop 4 (cs.drop 3)).symm
      _ = cs.take 3 ++ ((cs.drop 3).take 4 ++ sortTail) := by rw [hc]
      _ = cs.take 3 ++ (cs.drop 3).take 4 ++ sortTail := by
            rw [List.append_assoc]
  · cases hx : cs.take 3 with
    | nil => rw [hx] at h3; simp at h3
    | cons x t =>
        rw [hx] at h3
        exact ⟨x, t, rfl, h3⟩

theorem isSortablePreLcc_decomp {cs : List Char} (h : isSortablePreLcc cs = true) :
    ∃ a b, cs = a ++ b ∧ a.length = 3
      ∧ (∀ c ∈ a, (c.isAlpha || c == '-') = true)
      ∧ (∃ x t, a = x :: t ∧ x.isAlpha = true)
      ∧ b.length = 4 ∧ (∀ c ∈ b, c.isDigit = true) := by
  unfold isSortablePreLcc at h
  repeat rw [Bool.and_eq_true] at h
  obtain ⟨⟨⟨⟨h1, h2⟩, h3⟩, h4⟩, h5⟩ := h
  refine ⟨cs.take 3, cs.drop 3, (List.take_append_drop 3 cs).symm,
    of_decide_eq_true h1, List.all_eq_true.mp h2, ?_,
    of_decide_eq_true h4, List.all_eq_true.mp h5⟩
  cases hx : cs.take 3 with
  | nil => rw [hx] at h3; simp at h3
  | cons x t =>
      rw [hx] at h3
      exact ⟨x, t, rfl, h3⟩

theorem isSortableLcc_chars {cs : List Char} (h : isSortableLcc cs = true) :
    (∀ c ∈ cs, (c == '*') = false ∧ (c == ' ') = false ∧ (c == '"') = false)
    ∧ (∃ x t, cs = x :: t ∧ x.isAlpha = true)
    ∧ cs.getLast? = some '0' := by
  obtain ⟨a, b, rfl, ha3, haall, ⟨x, t, rfl, hx⟩, hb4, hball⟩ :=
    isSortableLcc_decomp h
  refine ⟨?_, ⟨x, t ++ b ++ sortTail, by simp, hx⟩, ?_⟩
  · intro c hc
    rcases List.mem_append.mp hc with hab | htail
    · rcases List.mem_append.mp hab with haa | hbb
      · have hcl := haall c haa
        exact ⟨@bne_of_pred Char _ _ (fun ch => ch.isAlpha || ch == '-')
            c '*' hcl (by decide),
          @bne_of_pred Char _ _ (fun ch => ch.isAlpha || ch == '-')
            c ' ' hcl (by decide),
          @bne_of_pred Char _ _ (fun ch => ch.isAlpha || ch == '-')
            c '"' hcl (by decide)⟩
      · have hcl := hball c hbb
        exact ⟨bne_of_pred hcl (by decide), bne_of_pred hcl (by decide),
          bne_of_pred hcl (by decide)⟩
    · rcases List.mem_cons.mp htail with rfl | hrep
      · exact ⟨by decide, by decide, by decide⟩
      · rw [List.eq_of_mem_replicate hrep]
        exact ⟨by decide, by decide, by decide⟩
  · rw [getLast?_append_of_ne_nil (by decide)]
    decide

theorem isSortablePreLcc_chars {cs : List Char} (h : isSortablePreLcc cs = true) :
    (∀ c ∈ cs, (c == '*') = false)
    ∧ (∃ x t, cs = x :: t ∧ x.isAlpha = true) := by
  obtain ⟨a, b, rfl, ha3, haall, ⟨x, t, rfl, hx⟩, hb4, hball⟩ :=
    isSortablePreLcc_decomp h
  refine ⟨?_, ⟨x, t ++ b, by simp, hx⟩⟩
  intro c hc
  rcases List.mem_append.mp hc with haa | hbb
  · exact @bne_of_pred Char _ _ (fun ch => ch.isAlpha || ch == '-')
      c '*' (haall c haa) (by decide)
  · exact bne_of_pred (hball c hbb) (by decide)

theorem sortable_length {cs : List Char} (h : isSortableLcc cs = true) :
    cs.length = 16 := by
  obtain ⟨a, b, rfl, ha3, -, -, hb4, -⟩ := isSortableLcc_decomp h
  rw [List.length_append, List.length_append, ha3, hb4]
  decide

theorem sortable_not_pre {cs : List Char} (h : isSortableLcc cs = true) :
    isSortablePreLcc cs = false := by
  cases hb : isSortablePreLcc cs with
  | false => rfl
  | true =>
      exfalso
      obtain ⟨a, b, heq, ha3, -, -, hb4, -⟩ := isSortablePreLcc_decomp hb
      have : cs.length = 7 := by
        rw [heq, List.length_append, ha3, hb4]
      rw [sortable_length h] at this
      exact absurd this (by decide)

theorem sortable_not_short {cs : List Char} (h : isSortableLcc cs = true) :
    isShortLcc cs = false := by
  cases hb : isShortLcc cs with
  | false => rfl
  | true =>
      exfalso
      obtain ⟨-, -, -, -, hdig⟩ := isShortLcc_parts hb
      obtain ⟨a, b, heq, -, -, -, -, -⟩ := isSortableLcc_decomp h
      have hdot : '.' ∈ cs := by
        rw [heq]
        exact List.mem_append.mpr (Or.inr (List.mem_cons_self _ _))
      have hmem : '.' ∈ lccD cs :=
        mem_dropWhile_of_not_sat hdot (by decide)
      exact absurd (hdig '.' hmem) (by decide)

theorem short_to_sortable_ok {cs : List Char} (h : isShortLcc cs = true) :
    isSortableLcc (sortableOfShort cs) = true := by
  obtain ⟨hL, hL3, hD, hD4, hDdig⟩ := isShortLcc_parts h
  apply isSortableLcc_build (padRight_length hL3)
  · intro c hc
    rcases mem_padRight hc with hmm | rfl
    · simp [List.mem_takeWhile_imp hmm]
    · decide
  · cases hx : lccL cs with
    | nil => exact absurd hx hL
    | cons x t =>
        refine ⟨x, t ++ List.replicate (3 - (x :: t).length) '-', rfl, ?_⟩
        exact List.mem_takeWhile_imp (hx ▸ List.mem_cons_self x t)
  · exact padLeft_length hD4
  · intro c hc
    rcases mem_padLeft hc with hmm | rfl
    · exact hDdig c hmm
    · decide

theorem short_to_pre_ok {cs : List Char} (h : isShortLcc cs = true) :
    isSortablePreLcc (sortablePreOfShort cs) = true := by
  obtain ⟨hL, hL3, hD, hD4, hDdig⟩ := isShortLcc_parts h
  apply isSortablePreLcc_build (padRight_length hL3)
  · intro c hc
    rcases mem_padRight hc with hmm | rfl
    · simp [List.mem_takeWhile_imp hmm]
    · decide
  · cases hx : lccL cs with
    | nil => exact absurd hx hL
    | cons x t =>
        refine ⟨x, t ++ List.replicate (3 - (x :: t).length) '-', rfl, ?_⟩
        exact List.mem_takeWhile_imp (hx ▸ List.mem_cons_self x t)
  · exact padLeft_length hD4
  · intro c hc
    rcases mem_padLeft hc with hmm | rfl
    · exact hDdig c hmm
    · decide

theorem short_lcc_fp {s n : String} (h : short_lcc_to_sortable_lcc s = some n) :
    short_lcc_to_sortable_lcc n = some n ∧ isSortableLcc n.data = true := by
  unfold short_lcc_to_sortable_lcc at h
  split at h
  · rename_i hs
    obtain rfl := Option.some.inj h
    exact ⟨by unfold short_lcc_to_sortable_lcc; rw [if_pos hs], hs⟩
  · split at h
    · rename_i hshort
      obtain rfl := Option.some.inj h
      have hsort : isSortableLcc (⟨sortableOfShort s.data⟩ : String).data = true :=
        short_to_sortable_ok hshort
      exact ⟨by unfold short_lcc_to_sortable_lcc; rw [if_pos hsort], hsort⟩
    · exact absurd h (by simp)

theorem normalize_lcc_pre_fp {s q : String} (h : normalize_lcc_pre s = some q) :
    normalize_lcc_pre q = some q ∧ isSortablePreLcc q.data = true := by
  unfold normalize_lcc_pre at h
  split at h
  · rename_i hs
    obtain rfl := Option.some.inj h
    exact ⟨by unfold normalize_lcc_pre; rw [if_pos hs], hs⟩
  · split at h
    · rename_i hshort
      obtain rfl := Option.some.inj h
      have hsort : isSortablePreLcc (⟨sortablePreOfShort s.data⟩ : String).data = true :=
        short_to_pre_ok hshort
      exact ⟨by unfold normalize_lcc_pre; rw [if_pos hsort], hsort⟩
    · exact absurd h (by simp)

theorem stripQ_sortable {n : String} (h : isSortableLcc n.data = true) :
    stripQuotes n = n := by
  obtain ⟨hchars, -, -⟩ := isSortableLcc_chars h
  have hs : stripQ n.data = n.data :=
    stripQ_eq_self
      (fun c t' hct =>
        (hchars c (by rw [hct]; exact List.mem_cons_self c t')).2.2)
      (fun y hy => (hchars y (mem_of_getLast?_eq hy)).2.2)
  unfold stripQuotes
  rw [hs]

theorem stripQ_quoted {l : List Char}
    (hq : ∀ c ∈ l, (c == '"') = false) (hne : l ≠ []) :
    stripQ ('"' :: (l ++ ['"'])) = l := by
  obtain ⟨x, t, rfl⟩ : ∃ x t, l = x :: t := by
    cases l with
    | nil => exact absurd rfl hne
    | cons x t => exact ⟨x, t, rfl⟩
  unfold stripQ
  have h1 : ('"' :: ((x :: t) ++ ['"'])).dropWhile (fun c => c == '"')
      = (x :: t) ++ ['"'] := by
    rw [List.dropWhile_cons, if_pos (by decide : (('"' : Char) == '"') = true),
      List.cons_append, List.dropWhile_cons, hq x (List.mem_cons_self x t)]
    simp [List.cons_append]
  rw [h1]
  have h2 : ((x :: t) ++ ['"']).reverse = '"' :: (x :: t).reverse := by
    rw [List.reverse_append]
    rfl
  rw [h2, List.dropWhile_cons,
    if_pos (by decide : (('"' : Char) == '"') = true)]
  have h3 : ((x :: t).reverse).dropWhile (fun c => c == '"') = (x :: t).reverse := by
    cases hr : (x :: t).reverse with
    | nil => simp at hr
    | cons y r =>
        have hy : y ∈ x :: t := by
          have hyr : y ∈ (x :: t).reverse := by
            rw [hr]; exact List.mem_cons_self y r
          exact List.mem_reverse.mp hyr
        rw [List.dropWhile_cons, hq y hy]
        simp
  rw [h3, List.reverse_reverse]

theorem lcc_range_parts {lo hi l h : String}
    (hr : normalize_lcc_range lo hi = some (l, h)) :
    short_lcc_to_sortable_lcc lo = some l
    ∧ short_lcc_to_sortable_lcc hi = some h := by
  unfold normalize_lcc_range at hr
  split at hr
  · rename_i l' h' hl' hh'
    obtain ⟨rfl, rfl⟩ := Prod.mk.inj (Option.some.inj hr)
    exact ⟨hl', hh'⟩
  · exact absurd hr (by simp)

/-- One wildcard-branch pass of `lcc_transform` on a value whose prefix part
is already a fixed point of the prefix normaliser leaves the value alone. -/
theorem lcc_word_star_step {q0 : String} {p1 : List Char}
    (hne : q0.data ≠ [])
    (hnostar : ∀ c ∈ q0.data, (c == '*') = false)
    (hfix : (normalize_lcc_pre q0).getD q0 = q0) :
    lcc_transform (.word ⟨q0.data ++ '*' :: p1⟩) = .word ⟨q0.data ++ '*' :: p1⟩ := by
  obtain ⟨y, ys, hys⟩ : ∃ y ys, q0.data = y :: ys := by
    cases hq : q0.data with
    | nil => exact absurd hq hne
    | cons y ys => exact ⟨y, ys, rfl⟩
  have hmem : '*' ∈ q0.data ++ '*' :: p1 :=
    List.mem_append.mpr (Or.inr (List.mem_cons_self _ _))
  have hhead : headIsStar ⟨q0.data ++ '*' :: p1⟩ = false := by
    rw [hys, List.cons_append, headIsStar_mk]
    exact hnostar y (by rw [hys]; exact List.mem_cons_self y ys)
  have hsat : ∀ c ∈ q0.data, (fun c => c != '*') c = true := by
    intro c hc
    simp [bne, hnostar c hc]
  have htke : (q0.data ++ '*' :: p1).takeWhile (fun c => c != '*') = q0.data := by
    rw [takeWhile_append_all _ hsat, List.takeWhile_cons]
    simp
  have hdrp : (q0.data ++ '*' :: p1).dropWhile (fun c => c != '*') = '*' :: p1 := by
    rw [dropWhile_append_all _ hsat, List.dropWhile_cons]
    simp
  simp only [lcc_transform]
  rw [if_pos ⟨hmem, hhead⟩, htke, hdrp]
  simp only [List.tail_cons, string_eta, hfix]

/-- C5 building block: the LCC normalizer is idempotent on every
parser-produced value (the corrupted-range state never legitimately
reaches it, so it is excluded rather than asserted about). -/
theorem lcc_transform_idem (v : QueryVal) (hv : parser_value v = true) :
    lcc_transform (lcc_transform v) = lcc_transform v := by
  cases v with
  | corruptRange lo hi => simp [parser_value] at hv
  | range lo hi =>
      cases hr : normalize_lcc_range lo hi with
      | none => simp [lcc_transform, hr]
      | some lh =>
          obtain ⟨l, h⟩ := lh
          obtain ⟨hl, hh⟩ := lcc_range_parts hr
          have hfp : normalize_lcc_range l h = some (l, h) := by
            unfold normalize_lcc_range
            rw [(short_lcc_fp hl).1, (short_lcc_fp hh).1]
          simp [lcc_transform, hr, hfp]
  | word s =>
      by_cases hc : '*' ∈ s.data ∧ headIsStar s = false
      · obtain ⟨hstar, hhead⟩ := hc
        obtain ⟨c0, rest, hs0⟩ : ∃ c0 rest, s.data = c0 :: rest := by
          cases hq : s.data with
          | nil => rw [hq] at hstar; exact absurd hstar (by simp)
          | cons c0 rest => exact ⟨c0, rest, rfl⟩
        have hc0 : (c0 == '*') = false := by
          rw [← @headIsStar_mk c0 rest, ← hs0, string_eta]
          exact hhead
        -- facts about the normalised prefix
        have hq0 : ∀ q0 : String,
            (normalize_lcc_pre ⟨s.data.takeWhile (fun c => c != '*')⟩).getD
                ⟨s.data.takeWhile (fun c => c != '*')⟩ = q0 →
            q0.data ≠ [] ∧ (∀ c ∈ q0.data, (c == '*') = false)
              ∧ (normalize_lcc_pre q0).getD q0 = q0 := by
          intro q0 hdef
          cases hpre : normalize_lcc_pre ⟨s.data.takeWhile (fun c => c != '*')⟩ with
          | none =>
              rw [hpre] at hdef
              simp only [Option.getD_none] at hdef
              subst hdef
              refine ⟨?_, ?_, ?_⟩
              · show s.data.takeWhile (fun c => c != '*') ≠ []
                rw [hs0, List.takeWhile_cons]
                simp [bne, hc0]
              · intro c hcm
                have hcs := List.mem_takeWhile_imp hcm
                simpa [bne] using hcs
              · rw [hpre]
                rfl
          | some q =>
              rw [hpre] at hdef
              simp only [Option.getD_some] at hdef
              subst hdef
              obtain ⟨hfpq, hpres⟩ := normalize_lcc_pre_fp hpre
              obtain ⟨hnostar, ⟨x, t, hxt, hxa⟩⟩ := isSortablePreLcc_chars hpres
              refine ⟨by rw [hxt]; simp, hnostar, by rw [hfpq]; rfl⟩
        obtain ⟨hne, hnostar, hfix⟩ := hq0 _ rfl
        have h1 : lcc_transform (.word s)
            = .word ⟨((normalize_lcc_pre ⟨s.data.takeWhile (fun c => c != '*')⟩).getD
                ⟨s.data.takeWhile (fun c => c != '*')⟩).data
              ++ '*' :: (s.data.dropWhile (fun c => c != '*')).tail⟩ := by
          simp only [lcc_transform]
          rw [if_pos ⟨hstar, hhead⟩]
        rw [h1]
        exact lcc_word_star_step hne hnostar hfix
      · cases hshort : short_lcc_to_sortable_lcc (stripQuotes s) with
        | none =>
            have h1 : lcc_transform (.word s) = .word s := by
              simp only [lcc_transform]
              rw [if_neg hc]
              simp only [hshort]
            rw [h1, h1]
        | some n =>
            obtain ⟨hfp, hsort⟩ := short_lcc_fp hshort
            obtain ⟨hchars, -, -⟩ := isSortableLcc_chars hsort
            have h1 : lcc_transform (.word s) = .word n := by
              simp only [lcc_transform]
              rw [if_neg hc]
              simp only [hshort]
            have hc2 : ¬ ('*' ∈ n.data ∧ headIsStar n = false) := by
              intro hpair
              exact absurd (hchars '*' hpair.1).1 (by simp)
            have h2 : lcc_transform (.word n) = .word n := by
              simp only [lcc_transform]
              rw [if_neg hc2]
              have h3 : short_lcc_to_sortable_lcc (stripQuotes n) = some n := by
                rw [stripQ_sortable hsort]
                exact hfp
              simp only [h3]
            rw [h1, h2]
  | phrase s =>
      cases hshort : short_lcc_to_sortable_lcc (stripQuotes s) with
      | none =>
          have h1 : lcc_transform (.phrase s) = .phrase s := by
            simp only [lcc_transform, hshort]
          rw [h1, h1]
      | some n =>
          obtain ⟨hfp, hsort⟩ := short_lcc_fp hshort
          obtain ⟨hchars, ⟨x, t, hxt, hxa⟩, -⟩ := isSortableLcc_chars hsort
          have h1 : lcc_transform (.phrase s) = .phrase ⟨'"' :: n.data ++ ['"']⟩ := by
            simp only [lcc_transform, hshort]
          have hstrip : stripQuotes ⟨'"' :: n.data ++ ['"']⟩ = n := by
            unfold stripQuotes
            show (⟨stripQ ('"' :: (n.data ++ ['"']))⟩ : String) = n
            rw [stripQ_quoted (fun c hc => (hchars c hc).2.2)
              (by rw [hxt]; simp)]
          have h2 : lcc_transform (.phrase ⟨'"' :: n.data ++ ['"']⟩)
              = .phrase ⟨'"' :: n.data ++ ['"']⟩ := by
            have h3 : short_lcc_to_sortable_lcc
                (stripQuotes ⟨'"' :: n.data ++ ['"']⟩) = some n := by
              rw [hstrip]
              exact hfp
            simp only [lcc_transform, h3]
          rw [h1, h2]
  | group ws =>
      cases hshort : short_lcc_to_sortable_lcc
          ⟨(String.intercalate " " ws).data⟩ with
      | none =>
          have h1 : lcc_transform (.group ws) = .group ws := by
            simp only [lcc_transform, hshort]
          rw [h1, h1]
      | some n =>
          obtain ⟨hfp, hsort⟩ := short_lcc_fp hshort
          obtain ⟨hchars, ⟨x, t, hxt, hxa⟩, -⟩ := isSortableLcc_chars hsort
          have hnospace : ¬ (' ' ∈ n.data) := by
            intro hmm
            exact absurd ((hchars ' ' hmm).2.1) (by simp)
          have hprenone : normalize_lcc_pre n = none := by
            unfold normalize_lcc_pre
            rw [if_neg (by simp [sortable_not_pre hsort]),
              if_neg (by simp [sortable_not_short hsort])]
          have h1 : lcc_transform (.group ws) = .word ⟨n.data ++ ['*']⟩ := by
            simp only [lcc_transform, hshort]
            rw [if_neg hnospace]
          have h2 := @lcc_word_star_step n []
            (by rw [hxt]; simp)
            (fun c hc => (hchars c hc).1)
            (by rw [hprenone]; rfl)
          rw [h1]
          exact h2

/-! ## Collection-tag normaliser: wildcard doubling -/

theorem headIsStar_append {s t : String} (hne : s.data ≠ []) :
    headIsStar (s ++ t) = headIsStar s := by
  cases hs : s.data with
  | nil => exact absurd hs hne
  | cons c cs =>
      unfold headIsStar
      rw [String.data_append, hs]
      rfl

theorem lastIsStar_append_star (s : String) : lastIsStar (s ++ "*") = true := by
  unfold lastIsStar
  rw [String.data_append]
  show (match (s.data ++ ['*']).getLast? with
    | some c => c == '*' | none => false) = true
  rw [List.getLast?_concat]
  rfl

theorem lastIsStar_ne_nil {s : String} (h : lastIsStar s = true) : s.data ≠ [] := by
  intro hnil
  unfold lastIsStar at h
  rw [hnil] at h
  simp at h

theorem str_length_append (a b : String) :
    (a ++ b).length = a.length + b.length := by
  show (a ++ b).data.length = a.data.length + b.data.length
  rw [String.data_append, List.length_append]

/-- The collection-tag normalizer appends one `*` per application to a
value that ends in a wildcard (and does not start with one), so a second
application changes the value again: it is not idempotent. -/
theorem ia_word_star {s : String}
    (h1 : headIsStar s = false) (h2 : lastIsStar s = true) :
    ia_collection_s_transform (.word s) = .word (s ++ "*")
    ∧ ia_collection_s_transform (ia_collection_s_transform (.word s))
        = .word (s ++ "*" ++ "*")
    ∧ ia_collection_s_transform (ia_collection_s_transform (.word s))
        ≠ ia_collection_s_transform (.word s) := by
  have hne : s.data ≠ [] := lastIsStar_ne_nil h2
  have happ : ia_collection_s_transform (.word s) = .word (s ++ "*") := by
    have e1 : (if headIsStar s then "*" ++ s else s) = s := by
      rw [h1]
      simp
    simp only [ia_collection_s_transform]
    rw [e1, h2]
    simp
  have h1b : headIsStar (s ++ "*") = false := by
    rw [headIsStar_append hne]
    exact h1
  have h2b : lastIsStar (s ++ "*") = true := lastIsStar_append_star s
  have happ2 : ia_collection_s_transform (.word (s ++ "*"))
      = .word (s ++ "*" ++ "*") := by
    have e1 : (if headIsStar (s ++ "*") then "*" ++ (s ++ "*") else s ++ "*")
        = s ++ "*" := by
      rw [h1b]
      simp
    simp only [ia_collection_s_transform]
    rw [e1, h2b]
    simp
  refine ⟨happ, by rw [happ, happ2], ?_⟩
  rw [happ, happ2]
  intro hcontra
  have hlen : (s ++ "*" ++ "*").length = (s ++ "*").length :=
    congrArg String.length (QueryVal.word.inj hcontra)
  simp only [str_length_append,
    show ("*" : String).length = 1 from rfl] at hlen
  omega

/-- C5 (corrected claim): the ISBN normalizer is idempotent on every value
node, the LCC normalizer on every parser-produced value node, and the DDC
normalizer on every `Word`, `Phrase` and `Group` and on every `Range`
whose two bounds both normalise; but a DDC `Range` with a failing bound is
corrupted by the first application (the source stores the node object
itself into the bound's value slot), so re-application is not meaningful
there, and the collection-tag normalizer is not idempotent: on a `Word`
that ends in a wildcard and does not start with one, each application
appends one more `*`, so the second application differs from the first. -/
theorem C5_normalizer_idempotence_amended :
    (∀ v, isbn_transform (isbn_transform v) = isbn_transform v)
    ∧ (∀ v, parser_value v = true →
        lcc_transform (lcc_transform v) = lcc_transform v)
    ∧ (∀ s, ddc_transform (ddc_transform (.word s)) = ddc_transform (.word s))
    ∧ (∀ s, ddc_transform (ddc_transform (.phrase s))
        = ddc_transform (.phrase s))
    ∧ (∀ ws, ddc_transform (ddc_transform (.group ws))
        = ddc_transform (.group ws))
    ∧ (∀ lo hi l h, normalize_ddc lo = some l → normalize_ddc hi = some h →
        ddc_transform (.range lo hi) = .range l h
        ∧ ddc_transform (ddc_transform (.range lo hi))
            = ddc_transform (.range lo hi))
    ∧ (∀ lo hi, normalize_ddc lo = none ∨ normalize_ddc hi = none →
        ddc_transform (.range lo hi)
          = .corruptRange (normalize_ddc lo) (normalize_ddc hi))
    ∧ ∀ s : String, headIsStar s = false → lastIsStar s = true →
        ia_collection_s_transform (.word s) = .word (s ++ "*")
        ∧ ia_collection_s_transform (ia_collection_s_transform (.word s))
            = .word (s ++ "*" ++ "*")
        ∧ ia_collection_s_transform (ia_collection_s_transform (.word s))
            ≠ ia_collection_s_transform (.word s) :=
  ⟨isbn_transform_idem, lcc_transform_idem,
   ddc_transform_word_idem, ddc_transform_phrase_idem,
   fun _ => rfl,
   fun _ _ _ _ hl hh => ddc_transform_range_ok hl hh,
   fun _ _ h => ddc_transform_range_corrupt h,
   fun _ h1 h2 => ia_word_star h1 h2⟩

/-- C5 counterexample: the collection-tag normalizer is not idempotent —
applying it twice to the `Word` `lendinglibrary*` (which it accepts) gives
`lendinglibrary***`, not the single application's `lendinglibrary**`. -/
theorem C5_collection_tag_not_idempotent_cx :
    ia_collection_s_transform
        (ia_collection_s_transform (.word "lendinglibrary*"))
      ≠ ia_collection_s_transform (.word "lendinglibrary*") := by decide

/-- C5 witness: the amended statement evaluated at concrete values,
discharging each hypothesis. -/
theorem C5_witness :
    isbn_transform (isbn_transform (.word "978-0140449136"))
        = isbn_transform (.word "978-0140449136")
    ∧ lcc_transform (lcc_transform (.word "NC1")) = lcc_transform (.word "NC1")
    ∧ (ddc_transform (.range "23.4" "24") = .range "023.4" "024"
        ∧ ddc_transform (ddc_transform (.range "23.4" "24"))
            = ddc_transform (.range "23.4" "24"))
    ∧ ddc_transform (.range "abc" "24")
        = .corruptRange (normalize_ddc "abc") (normalize_ddc "24")
    ∧ (ia_collection_s_transform (.word "foo*") = .word ("foo*" ++ "*")
        ∧ ia_collection_s_transform (ia_collection_s_transform (.word "foo*"))
            = .word ("foo*" ++ "*" ++ "*")
        ∧ ia_collection_s_transform (ia_collection_s_transform (.word "foo*"))
            ≠ ia_collection_s_transform (.word "foo*")) :=
  ⟨C5_normalizer_idempotence_amended.1 (.word "978-0140449136"),
   C5_normalizer_idempotence_amended.2.1 (.word "NC1") (by decide),
   C5_normalizer_idempotence_amended.2.2.2.2.2.1 "23.4" "24" "023.4" "024"
     (by decide) (by decide),
   C5_normalizer_idempotence_amended.2.2.2.2.2.2.1 "abc" "24"
     (Or.inl (by decide)),
   C5_normalizer_idempotence_amended.2.2.2.2.2.2.2 "foo*"
     (by decide) (by decide)⟩

/-! ## Edition field mapper: error propagation -/

theorem cwf_error_shape {field e : String}
    (h : convert_work_field_to_edition_field field = .error e) :
    e = "Unknown field: " ++ field := by
  unfold convert_work_field_to_edition_field at h
  split at h
  · exact absurd h (by simp)
  · split at h
    · exact absurd h (by simp)
    · split at h
      · exact absurd h (by simp)
      · exact (Except.error.inj h).symm

theorem convertTree_error_shape : ∀ (t : QueryNode) (neg : Bool) (e : String),
    convertTree neg t = .error e → ∃ f, e = "Unknown field: " ++ f := by
  intro t
  induction t with
  | word s => intro neg e h; exact absurd h (by simp [convertTree])
  | phrase s => intro neg e h; exact absurd h (by simp [convertTree])
  | range lo hi => intro neg e h; exact absurd h (by simp [convertTree])
  | searchField name v =>
      intro neg e h
      simp only [convertTree] at h
      split at h
      · exact absurd h (by simp)
      · split at h
        · rename_i e' he'
          obtain rfl := Except.error.inj h
          exact ⟨name, cwf_error_shape he'⟩
        · exact absurd h (by simp)
        · exact absurd h (by simp)
  | group t ih =>
      intro neg e h
      simp only [convertTree] at h
      split at h
      · rename_i e' he'
        obtain rfl := Except.error.inj h
        exact ih false e' he'
      · exact absurd h (by simp)
      · exact absurd h (by simp)
  | notNode t ih =>
      intro neg e h
      simp only [convertTree] at h
      split at h
      · rename_i e' he'
        obtain rfl := Except.error.inj h
        exact ih true e' he'
      · exact absurd h (by simp)
      · exact absurd h (by simp)
  | prohibit t ih =>
      intro neg e h
      simp only [convertTree] at h
      split at h
      · rename_i e' he'
        obtain rfl := Except.error.inj h
        exact ih true e' he'
      · exact absurd h (by simp)
      · exact absurd h (by simp)
  | andOp l r ihl ihr =>
      intro neg e h
      simp only [convertTree] at h
      cases hl : convertTree false l with
      | error e' =>
          rw [hl] at h
          simp only [Except.error.injEq] at h
          subst h
          exact ihl false e' hl
      | ok ol =>
          cases hr : convertTree false r with
          | error e' =>
              rw [hl, hr] at h
              cases ol <;> simp only [Except.error.injEq] at h <;> subst h <;>
                exact ihr false e' hr
          | ok orr =>
              rw [hl, hr] at h
              cases ol <;> cases orr <;> simp at h
  | orOp l r ihl ihr =>
      intro neg e h
      simp only [convertTree] at h
      cases hl : convertTree false l with
      | error e' =>
          rw [hl] at h
          simp only [Except.error.injEq] at h
          subst h
          exact ihl false e' hl
      | ok ol =>
          cases hr : convertTree false r with
          | error e' =>
              rw [hl, hr] at h
              cases ol <;> simp only [Except.error.injEq] at h <;> subst h <;>
                exact ihr false e' hr
          | ok orr =>
              rw [hl, hr] at h
              cases ol <;> cases orr <;> simp at h
  | unknownOp l r ihl ihr =>
      intro neg e h
      simp only [convertTree] at h
      cases hl : convertTree false l with
      | error e' =>
          rw [hl] at h
          simp only [Except.error.injEq] at h
          subst h
          exact ihl false e' hl
      | ok ol =>
          cases hr : convertTree false r with
          | error e' =>
              rw [hl, hr] at h
              cases ol <;> simp only [Except.error.injEq] at h <;> subst h <;>
                exact ihr false e' hr
          | ok orr =>
              rw [hl, hr] at h
              cases ol <;> cases orr <;> simp at h

theorem convertTree_occurs_error : ∀ (t : QueryNode) (neg : Bool) {name : String},
    tree_has_field name t = true → name ≠ "*" →
    (∃ msg, convert_work_field_to_edition_field name = .error msg) →
    ∃ e, convertTree neg t = .error e := by
  intro t
  induction t with
  | word s => intro neg name hocc; simp [tree_has_field] at hocc
  | phrase s => intro neg name hocc; simp [tree_has_field] at hocc
  | range lo hi => intro neg name hocc; simp [tree_has_field] at hocc
  | searchField n v =>
      intro neg name hocc hstar herr
      obtain ⟨msg, hmsg⟩ := herr
      have hn : n = name := eq_of_beq (by simpa [tree_has_field] using hocc)
      subst hn
      refine ⟨msg, ?_⟩
      simp only [convertTree]
      rw [if_neg hstar, hmsg]
  | group t ih =>
      intro neg name hocc hstar herr
      obtain ⟨e, he⟩ := ih false (by simpa [tree_has_field] using hocc) hstar herr
      exact ⟨e, by simp only [convertTree]; rw [he]⟩
  | notNode t ih =>
      intro neg name hocc hstar herr
      obtain ⟨e, he⟩ := ih true (by simpa [tree_has_field] using hocc) hstar herr
      exact ⟨e, by simp only [convertTree]; rw [he]⟩
  | prohibit t ih =>
      intro neg name hocc hstar herr
      obtain ⟨e, he⟩ := ih true (by simpa [tree_has_field] using hocc) hstar herr
      exact ⟨e, by simp only [convertTree]; rw [he]⟩
  | andOp l r ihl ihr =>
      intro neg name hocc hstar herr
      simp only [tree_has_field, Bool.or_eq_true] at hocc
      rcases hocc with hoccl | hoccr
      · obtain ⟨e, he⟩ := ihl false hoccl hstar herr
        refine ⟨e, ?_⟩
        simp only [convertTree]
        rw [he]
        cases hr2 : convertTree false r with
        | error e2 => rfl
        | ok o => cases o <;> rfl
      · cases hl2 : convertTree false l with
        | error e =>
            refine ⟨e, ?_⟩
            simp only [convertTree]
            rw [hl2]
            cases hr2 : convertTree false r with
            | error e2 => rfl
            | ok o => cases o <;> rfl
        | ok ol =>
            obtain ⟨e, he⟩ := ihr false hoccr hstar herr
            refine ⟨e, ?_⟩
            simp only [convertTree]
            rw [hl2, he]
            cases ol <;> rfl
  | orOp l r ihl ihr =>
      intro neg name hocc hstar herr
      simp only [tree_has_field, Bool.or_eq_true] at hocc
      rcases hocc with hoccl | hoccr
      · obtain ⟨e, he⟩ := ihl false hoccl hstar herr
        refine ⟨e, ?_⟩
        simp only [convertTree]
        rw [he]
        cases hr2 : convertTree false r with
        | error e2 => rfl
        | ok o => cases o <;> rfl
      · cases hl2 : convertTree false l with
        | error e =>
            refine ⟨e, ?_⟩
            simp only [convertTree]
            rw [hl2]
            cases hr2 : convertTree false r with
            | error e2 => rfl
            | ok o => cases o <;> rfl
        | ok ol =>
            obtain ⟨e, he⟩ := ihr false hoccr hstar herr
            refine ⟨e, ?_⟩
            simp only [convertTree]
            rw [hl2, he]
            cases ol <;> rfl
  | unknownOp l r ihl ihr =>
      intro neg name hocc hstar herr
      simp only [tree_has_field, Bool.or_eq_true] at hocc
      rcases hocc with hoccl | hoccr
      · obtain ⟨e, he⟩ := ihl false hoccl hstar herr
        refine ⟨e, ?_⟩
        simp only [convertTree]
        rw [he]
        cases hr2 : convertTree false r with
        | error e2 => rfl
        | ok o => cases o <;> rfl
      · cases hl2 : convertTree false l with
        | error e =>
            refine ⟨e, ?_⟩
            simp only [convertTree]
            rw [hl2]
            cases hr2 : convertTree false r with
            | error e2 => rfl
            | ok o => cases o <;> rfl
        | ok ol =>
            obtain ⟨e, he⟩ := ihr false hoccr hstar herr
            refine ⟨e, ?_⟩
            simp only [convertTree]
            rw [hl2, he]
            cases ol <;> rfl

theorem convert_query_error {t : QueryNode} {name : String}
    (hocc : tree_has_field name t = true) (hstar : name ≠ "*")
    (hmap : List.lookup name WORK_FIELD_TO_ED_FIELD = none)
    (hid : pyStartsWith name "id_" = false)
    (hall : name ∉ all_fields)
    (hfacet : name ∉ facet_fields) :
    ∃ f, convert_work_query_to_edition_query t
      = .error ("Unknown field: " ++ f) := by
  have hcwf : convert_work_field_to_edition_field name
      = .error ("Unknown field: " ++ name) := by
    simp [convert_work_field_to_edition_field, hmap, hid, hall, hfacet]
  obtain ⟨e, he⟩ := convertTree_occurs_error t false hocc hstar ⟨_, hcwf⟩
  obtain ⟨f, hf⟩ := convertTree_error_shape t false e he
  refine ⟨f, ?_⟩
  unfold convert_work_query_to_edition_query
  rw [he, hf]

/-- The `fq` scan of `q_to_solr_params` runs over a parameter list holding
only the `workQuery` entry, so it always yields exactly the base
`type:edition` filter. -/
theorem collect_workQuery (w : String) :
    collect_editions_fq [("workQuery", w)] = .ok ["type:edition"] := rfl

/-- C2: a work query containing a field-scoped node whose name has no
edition rename, is not an `id_` field, and is in neither the queryable nor
the facet set makes the edition mapping inside `q_to_solr_params` (edition
mode active) fail with an unknown-field error instead of dropping the
node. -/
theorem C2_unknown_field_rejected (t : QueryNode) (fields : List String)
    (lang name : String)
    (hocc : tree_has_field name t = true) (hstar : name ≠ "*")
    (hmap : List.lookup name WORK_FIELD_TO_ED_FIELD = none)
    (hid : pyStartsWith name "id_" = false)
    (hall : name ∉ all_fields)
    (hfacet : name ∉ facet_fields)
    (hf : fields.contains "editions:[subquery]" = true) :
    ∃ f, q_to_solr_params true lang t fields
      = .error ("Unknown field: " ++ f) := by
  obtain ⟨f, hconv⟩ := convert_query_error hocc hstar hmap hid hall hfacet
  refine ⟨f, ?_⟩
  simp only [q_to_solr_params, hf, collect_workQuery, hconv]
  simp

/-- C2 witness: the unknown field `foo` aborts the rewrite. -/
theorem C2_witness :
    ∃ f, q_to_solr_params true "en" (.searchField "foo" (.word "x"))
        ["editions:[subquery]"]
      = .error ("Unknown field: " ++ f) :=
  C2_unknown_field_rejected (.searchField "foo" (.word "x"))
    ["editions:[subquery]"] "en" "foo"
    (by decide) (by decide) (by decide) (by decide) (by decide) (by decide)
    (by decide)

/-- C3: when the parsed tree has no field-scoped node and the raw query
normalises to a 10- or 13-digit ISBN, `transform_user_query` discards the
tree and returns the fresh `isbn:(<normalized-isbn>)` tree. -/
theorem C3_bare_isbn_fallback (uq : String) (t : QueryNode) (i : String)
    (hsf : has_search_fields t = false)
    (hn : normalize_isbn uq = some i)
    (hlen : i.length = 10 ∨ i.length = 13) :
    transform_user_query uq t = .searchField "isbn" (.group [i]) := by
  simp only [transform_user_query, hsf, hn]
  simp [hlen]

/-- C3 witness: raw input `9780140449136` yields the `isbn:(9780140449136)`
tree. -/
theorem C3_witness :
    transform_user_query "9780140449136" (.word "9780140449136")
      = .searchField "isbn" (.group ["9780140449136"]) :=
  C3_bare_isbn_fallback "9780140449136" (.word "9780140449136")
    "9780140449136" (by decide) (by decide) (Or.inr (by decide))

/-- C4: the special-field dispatch in `transform_user_query` tests the
names `dcc`/`dcc_sort`, so a `ddc`-scoped value is never normalised even
though the DDC normalizer would rewrite it, while the dead name `dcc`
would dispatch it. -/
theorem C4_ddc_dispatch_typo :
    transform_user_query "ddc:23.4" (.searchField "ddc" (.word "23.4"))
        = .searchField "ddc" (.word "23.4")
    ∧ ddc_transform (.word "23.4") = .word "023.4"
    ∧ transform_search_field "dcc" (.word "23.4") = ("dcc", .word "023.4") := by
  refine ⟨by decide, by decide, by decide⟩

/-- C6 counterexample: a renamed field under a `Prohibit` through an
intervening `Group` still receives the mandatory `+` prefix, because the
source only inspects the immediate parent. -/
theorem C6_group_negation_prefix_cx :
    convert_work_query_to_edition_query
        (.prohibit (.group (.searchField "title" (.word "emma"))))
      = .ok "-(+title:emma)"
    ∧ ("-(+title:emma)" : String) ≠ "-(title:emma)" := by
  refine ⟨rfl, by decide⟩

/-- C6 (corrected claim): during edition mapping a renamed field is marked
mandatory with `+` iff its immediate parent node is not a `Not`/`Prohibit`;
directly under a negation it is renamed without the prefix, but with an
intervening `Group` the prefix is still applied. -/
theorem C6_mandatory_prefix_amended (name n' : String) (v : QueryVal)
    (hm : List.lookup name WORK_FIELD_TO_ED_FIELD = some n')
    (hstar : name ≠ "*") :
    convert_work_query_to_edition_query (.searchField name v)
        = .ok (renderNode (.searchField ("+" ++ n') v))
    ∧ convert_work_query_to_edition_query (.notNode (.searchField name v))
        = .ok (renderNode (.notNode (.searchField n' v)))
    ∧ convert_work_query_to_edition_query (.prohibit (.searchField name v))
        = .ok (renderNode (.prohibit (.searchField n' v)))
    ∧ convert_work_query_to_edition_query (.group (.searchField name v))
        = .ok (renderNode (.group (.searchField ("+" ++ n') v)))
    ∧ convert_work_query_to_edition_query
          (.prohibit (.group (.searchField name v)))
        = .ok (renderNode (.prohibit (.group (.searchField ("+" ++ n') v)))) := by
  have hcwf : convert_work_field_to_edition_field name = .ok (some n') := by
    unfold convert_work_field_to_edition_field
    rw [hm]
  refine ⟨?_, ?_, ?_, ?_, ?_⟩ <;>
    simp [convert_work_query_to_edition_query, convertTree, hcwf, hstar]

/-- C6 witness: `publisher` keeps its `+` inside a prohibited group. -/
theorem C6_witness :
    convert_work_query_to_edition_query
        (.prohibit (.group (.searchField "publisher" (.word "penguin"))))
      = .ok "-(+publisher:penguin)" := by
  rw [(C6_mandatory_prefix_amended "publisher" "publisher" (.word "penguin")
    (by decide) (by decide)).2.2.2.2]
  rfl

/-- C7 counterexample: the alias key `_ia_collection` resolves to
`ia_collection_s`, which `is_search_field` rejects. -/
theorem C7_alias_totality_cx :
    List.lookup "_ia_collection" field_name_map = some "ia_collection_s"
    ∧ is_search_field "ia_collection_s" = false := by
  refine ⟨by decide, by decide⟩

/-- C7 (corrected claim): every alias-map key except `_ia_collection`
resolves to a field accepted by `is_search_field`; all keys are already
lowercase, and the lookup itself lowercases the queried name, so matching
is case-insensitive; the one exception `_ia_collection` maps to the
non-queryable `ia_collection_s`. -/
theorem C7_alias_map_amended :
    (∀ k v, (k, v) ∈ field_name_map → k ≠ "_ia_collection"
      → is_search_field v = true)
    ∧ (∀ k v, (k, v) ∈ field_name_map → pyLower k = k)
    ∧ resolve_alias "_ia_collection" = some "ia_collection_s"
    ∧ is_search_field "ia_collection_s" = false := by
  refine ⟨?_, ?_, by decide, by decide⟩
  · intro k v h hk
    fin_cases h <;> first | decide | exact absurd rfl hk
  · intro k v h
    fin_cases h <;> decide

/-- C7 witness: the `author` alias resolves into the queryable set. -/
theorem C7_witness : is_search_field "author_name" = true :=
  C7_alias_map_amended.1 "author" "author_name" (by decide) (by decide)

/-- C8: on a `Word` ending in `*`, `ddc_transform` leaves the node
unchanged — the normalised prefix plus wildcard is computed but only
returned (and discarded by every caller), never assigned to the node. -/
theorem C8_ddc_wildcard_discarded :
    ddc_transform (.word "23*") = .word "23*"
    ∧ ddc_transform_ret (.word "23*") = some "023*"
    ∧ ("023*" : String) ≠ "23*" := by
  refine ⟨by decide, by decide, by decide⟩

/-- C9: the structured-query builder emits the author-name disjunction and
the title clause joined by AND for `{author: "Jane Austen", title:
"Emma"}`, and the empty string for an empty input map. -/
theorem C9_structured_query_builder :
    build_q_from_params [("author", .str "Jane Austen"), ("title", .str "Emma")]
      = "(author_name:(Jane Austen) OR author_alternative_name:(Jane Austen)) AND title:(Emma)"
    ∧ build_q_from_params [] = "" := by
  refine ⟨by decide, by decide⟩

/-! ## Parent-child composer: C1 and C10 -/

/-- C1: whenever `q_to_solr_params` emits the edition-join branch (an
`edQuery` parameter), the combined `q` parameter it appends contains the
parent-join clause disjoined with the editionless-work allowance
`OR edition_count:0`, so zero-edition works are never excluded. -/
theorem C1_editionless_work_preserved (enabled : Bool) (lang : String)
    (t : QueryNode) (fields : List String)
    (ps : List (String × String)) (e : String)
    (hok : q_to_solr_params enabled lang t fields = .ok ps)
    (hjoin : ("edQuery", e) ∈ ps) :
    ∃ v, ("q", v) ∈ ps
      ∧ (∃ a b, v = a ++ "OR edition_count:0" ++ b)
      ∧ ∃ c d, v = c
          ++ "_query_:\"\x7b!parent which=type:work v=$edQuery filters=$editions.fq\x7d\""
          ++ d := by
  unfold q_to_solr_params at hok
  split at hok
  · simp only [collect_workQuery] at hok
    cases hconv : convert_work_query_to_edition_query t with
    | error e2 =>
        rw [hconv] at hok
        exact absurd hok (by simp)
    | ok ed_q =>
        rw [hconv] at hok
        have hok2 := Except.ok.inj hok
        by_cases hq : ed_q ≠ "" ∨ (["type:edition"] : List String).length > 1
        · rw [if_pos hq] at hok2
          refine ⟨"+" ++ full_work_query ++ parent_join_q, ?_, ?_, ?_⟩
          · rw [← hok2]
            refine List.mem_append.mpr (Or.inr ?_)
            exact List.mem_cons_of_mem _ (List.mem_cons_self _ _)
          · refine ⟨"+" ++ full_work_query
              ++ " +(_query_:\"\x7b!parent which=type:work v=$edQuery filters=$editions.fq\x7d\" ",
              ")", ?_⟩
            rfl
          · refine ⟨"+" ++ full_work_query ++ " +(",
              " OR edition_count:0)", ?_⟩
            rfl
        · rw [if_neg hq] at hok2
          exfalso
          rw [← hok2] at hjoin
          simp at hjoin
  · have hok2 := Except.ok.inj hok
    exfalso
    rw [← hok2] at hjoin
    simp at hjoin

/-- C1 witness: a `title:emma` work query with the edition sentinel
projection emits the join branch, and its `q` contains both the parent
join and `OR edition_count:0`. -/
theorem C1_witness :
    ∃ v, ("q", v) ∈
        ([("workQuery", "title:emma"), ("editions.fq", "type:edition"),
          ("edQuery", full_ed_query "eng" "+title:emma"),
          ("q", "+" ++ full_work_query ++ parent_join_q),
          ("editions.q",
            "(\x7b!terms f=_root_ v=$row.key\x7d) AND "
              ++ full_ed_query "eng" "+title:emma"),
          ("editions.rows", "1"),
          ("editions.fl", "")] : List (String × String))
      ∧ (∃ a b, v = a ++ "OR edition_count:0" ++ b)
      ∧ ∃ c d, v = c
          ++ "_query_:\"\x7b!parent which=type:work v=$edQuery filters=$editions.fq\x7d\""
          ++ d :=
  C1_editionless_work_preserved true "en"
    (.searchField "title" (.word "emma")) ["editions:[subquery]"]
    _ (full_ed_query "eng" "+title:emma") rfl
    (List.mem_cons_of_mem _ (List.mem_cons_of_mem _ (List.mem_cons_self _ _)))

/-- C10: at the `fq`-scan point of `q_to_solr_params` the parameter list
holds only the `workQuery` entry, so the collected edition filter list is
exactly `["type:edition"]`; consequently, with edition mode active, the
parent-join branch is taken iff the mapped edition fragment is
non-empty. -/
theorem C10_fq_scan_invariant (t : QueryNode) (fields : List String)
    (lang ed_q : String)
    (hf : fields.contains "editions:[subquery]" = true)
    (hc : convert_work_query_to_edition_query t = .ok ed_q) :
    collect_editions_fq [("workQuery", renderNode t)] = .ok ["type:edition"]
    ∧ ∃ ps, q_to_solr_params true lang t fields = .ok ps
        ∧ ((∃ e, ("edQuery", e) ∈ ps) ↔ ed_q ≠ "") := by
  refine ⟨collect_workQuery _, ?_⟩
  unfold q_to_solr_params
  have hcond : (true && fields.contains "editions:[subquery]") = true := by
    rw [Bool.true_and]
    exact hf
  rw [if_pos hcond]
  simp only [collect_workQuery, hc]
  by_cases hq : ed_q = ""
  · subst hq
    rw [if_neg (by simp)]
    refine ⟨_, rfl, ?_⟩
    constructor
    · rintro ⟨e, he⟩
      exfalso
      simp at he
    · intro hne
      exact absurd rfl hne
  · rw [if_pos (Or.inl hq)]
    refine ⟨_, rfl, ?_⟩
    constructor
    · intro _
      exact hq
    · intro _
      exact ⟨_, List.mem_append.mpr (Or.inr (List.mem_cons_self _ _))⟩

/-- C10 witness: the invariant and the iff evaluated on a `title:emma`
query and the sentinel-only projection. -/
theorem C10_witness :
    collect_editions_fq
        [("workQuery", renderNode (.searchField "title" (.word "emma")))]
      = .ok ["type:edition"]
    ∧ ∃ ps, q_to_solr_params true "en"
          (.searchField "title" (.word "emma")) ["editions:[subquery]"]
        = .ok ps
        ∧ ((∃ e, ("edQuery", e) ∈ ps) ↔ ("+title:emma" : String) ≠ "") :=
  C10_fq_scan_invariant (.searchField "title" (.word "emma"))
    ["editions:[subquery]"] "en" "+title:emma" (by decide) rfl

end Worksearch
